import Mathlib

/-!
# Verification of the BPEtfbs core algorithms

Shallow embedding of the repository's three source files:

* `standard_bpe.py` — classic BPE: `get_stats`, `merge_vocab`, `learn_bpe`,
  `apply_bpe` with `</w>` end-of-word framing;
* `bpe_processor.py` — the same core with `<s> … </s>` sequence framing
  (`prepare_sequences`, `get_stats`, `merge_vocab`, `learn_bpe`, `apply_bpe`);
* `glove_cooccurrence.py` — `CooccurrenceMatrix.compute_cooccurrence`.

Python strings are embedded as `List Char`; Python dicts / `Counter` /
`defaultdict` are embedded as insertion-ordered association lists with the
exact update behaviour of CPython dicts (an update keeps the key's position,
a new key is appended).  Floating-point co-occurrence weights are embedded
as exact rationals `ℚ`; on the weights produced here (`1/d` for window
distances `d`) the algebra is the same, without rounding noise.
-/

/-- Whitespace test used by Python's `str.split` and by `\S` in the merge
regex `(?<!\S)L R(?!\S)` (ASCII fragment; the corpora are over `<`, `>`,
`/`, letters, so this is the relevant fragment). -/
def isSp (c : Char) : Bool :=
  c == ' ' || c == '\t' || c == '\n' || c == '\x0b' || c == '\x0c' || c == '\r'

/-- A string with no whitespace characters (what `word.split()` tokens and
learned symbols always are). -/
def wsfree (s : List Char) : Prop := ∀ c ∈ s, isSp c = false

instance (s : List Char) : Decidable (wsfree s) := by
  unfold wsfree; infer_instance

/-- Literal prefix test: `startsWith p s` holds iff the pattern `p` is an
initial segment of `s` (the merge pattern is `re.escape`d, so it matches
literally). -/
def startsWith : List Char → List Char → Bool
  | [], _ => true
  | _ :: _, [] => false
  | p :: ps, c :: cs => if p = c then startsWith ps cs else false

/-- The trailing look-ahead `(?!\S)`: satisfied at end of string or before a
whitespace character. -/
def lookAfter : List Char → Bool
  | [] => true
  | c :: _ => isSp c

/-- Whether, right after a pattern occurrence `L ++ ' ' :: R`, the scanner is
at a boundary: the previous original character is the last character of the
pattern (`' '` when `R = []`, else the last character of `R`). -/
def afterFlag (R : List Char) : Bool :=
  match R.getLast? with
  | none => true
  | some c => isSp c

/-- One left-to-right pass of `re.compile(r'(?<!\S)' + bigram + r'(?!\S)').sub`
with `bigram = re.escape(' '.join(pair))` and replacement `''.join(pair)`
(the body of `merge_vocab` / the per-rule step of `apply_bpe` in both
`standard_bpe.py` and `bpe_processor.py`).

`b` records whether the previous original character is whitespace-or-start
(so the look-behind `(?<!\S)` holds at the current position).  The fuel
argument makes the recursion structural; it is always run with fuel at
least the length of the scanned string, where it never runs out (each step
consumes at least one character). -/
def pySubGo (L R : List Char) : Nat → Bool → List Char → List Char
  | _, _, [] => []
  | 0, _, s => s
  | fuel + 1, b, c :: rest =>
    if b = true ∧ startsWith (L ++ ' ' :: R) (c :: rest) = true ∧
        lookAfter (rest.drop (L.length + R.length)) = true then
      (L ++ R) ++ pySubGo L R fuel (afterFlag R) (rest.drop (L.length + R.length))
    else
      c :: pySubGo L R fuel (isSp c) rest

/-- The regex-based pair substitution on one space-joined word:
`p.sub(''.join(pair), word)` for `p = re.compile(r'(?<!\S)' + bigram + r'(?!\S)')`. -/
def pySub (L R s : List Char) : List Char :=
  pySubGo L R s.length true s

/-- `' '.join` of a list of words (each word is a `List Char`). -/
def sjoin : List (List Char) → List Char
  | [] => []
  | [w] => w
  | w :: x :: ws => w ++ ' ' :: sjoin (x :: ws)

/-- `' '.join(seq)` where `seq` is iterated character by character. -/
def spaceOut : List Char → List Char
  | [] => []
  | [c] => [c]
  | c :: d :: rest => c :: ' ' :: spaceOut (d :: rest)

/-- Python `str.split()`: split on whitespace runs, producing no empty
tokens.  `acc` is the reversed current word. -/
def splitWsAux : List Char → List Char → List (List Char)
  | acc, [] => if acc.isEmpty = true then [] else [acc.reverse]
  | acc, c :: rest =>
    if isSp c = true then
      if acc.isEmpty = true then splitWsAux [] rest
      else acc.reverse :: splitWsAux [] rest
    else splitWsAux (c :: acc) rest

def splitWs (s : List Char) : List (List Char) := splitWsAux [] s

/-- Remove every whitespace character (concatenating `s.split()` yields
exactly this). -/
def despace (s : List Char) : List Char := s.filter (fun c => !isSp c)

/-- Concatenation of a token list. -/
def concatTokens (ts : List (List Char)) : List Char :=
  ts.foldr (fun t acc => t ++ acc) []

/-- The exact-adjacency splice on a token list described by the spec: replace
each left-to-right non-overlapping occurrence of the two adjacent tokens
`L, R` by the single token `L ++ R`, leaving all other tokens unchanged. -/
def mergeTokens (L R : List Char) : List (List Char) → List (List Char)
  | [] => []
  | [t] => [t]
  | t1 :: t2 :: rest =>
    if t1 = L ∧ t2 = R then (L ++ R) :: mergeTokens L R rest
    else t1 :: mergeTokens L R (t2 :: rest)

/-- Number of maximal runs of non-whitespace characters, i.e.
`len(s.split())`; `inw` records whether the scan is currently inside a run. -/
def wcAux : Bool → List Char → Nat
  | _, [] => 0
  | inw, c :: rest =>
    if isSp c = true then wcAux false rest
    else (if inw then 0 else 1) + wcAux true rest

/-! ## Vocabulary state and the greedy learner -/

/-- The learner's training state: Python dict from the space-joined word to
its corpus frequency, in insertion order. -/
abbrev Vocab := List (List Char × Nat)

/-- Python `Counter` increment `vocab[k] += 1`: bump an existing key in
place, or append the key with count 1. -/
def cincr (k : List Char) : Vocab → Vocab
  | [] => [(k, 1)]
  | (k', n) :: rest => if k = k' then (k', n + 1) :: rest else (k', n) :: cincr k rest

/-- Python dict assignment `d[k] = v`: overwrite in place or append. -/
def dinsert (k : List Char) (v : Nat) : Vocab → Vocab
  | [] => [(k, v)]
  | (k', v') :: rest => if k = k' then (k', v) :: rest else (k', v') :: dinsert k v rest

/-- `defaultdict(int)` update `pairs[p] += f` on the pair-statistics table. -/
def addPairCount (p : List Char × List Char) (f : Nat) :
    List ((List Char × List Char) × Nat) → List ((List Char × List Char) × Nat)
  | [] => [(p, f)]
  | (q, n) :: rest =>
    if p = q then (q, n + f) :: rest else (q, n) :: addPairCount p f rest

/-- Adjacent pairs `(symbols[i], symbols[i+1])` of a list, in order. -/
def adjPairs {α : Type} : List α → List (α × α)
  | [] => []
  | [_] => []
  | a :: b :: rest => (a, b) :: adjPairs (b :: rest)

/-- `get_stats` (identical in `standard_bpe.py` and `bpe_processor.py`):
scan every vocabulary entry in insertion order, split it into symbols, and
add the entry's frequency to each adjacent symbol pair's aggregate. -/
def get_stats (v : Vocab) : List ((List Char × List Char) × Nat) :=
  v.foldl (fun acc e =>
    (adjPairs (splitWs e.1)).foldl (fun a p => addPairCount p e.2 a) acc) []

/-- `merge_vocab` (identical in both files): rebuild the dict, replacing the
pair in every word via the regex substitution; `v_out[new_word] = v_in[word]`
is a dict assignment, so colliding images overwrite. -/
def merge_vocab (L R : List Char) (vin : Vocab) : Vocab :=
  vin.foldl (fun acc e => dinsert (pySub L R e.1) e.2 acc) []

/-- Python `max(pairs, key=pairs.get)`: fold keeping the current best and
replacing it only on a strictly greater value, so on ties the first
(insertion-order) maximal pair wins. -/
def argmaxFirst {α : Type} : α × Nat → List (α × Nat) → α
  | best, [] => best.1
  | best, kv :: rest => argmaxFirst (if kv.2 > best.2 then kv else best) rest

/-- The body of the learning loop of `learn_bpe` (identical in both files):
recompute statistics, stop when empty, else merge the best pair and record
it.  Returns the final state and the learned codes. -/
def learnSteps : Nat → Vocab → List (List Char × List Char) →
    Vocab × List (List Char × List Char)
  | 0, v, acc => (v, acc)
  | n + 1, v, acc =>
    match get_stats v with
    | [] => (v, acc)
    | kv :: rest =>
      let best := argmaxFirst kv rest
      learnSteps n (merge_vocab best.1 best.2 v) (acc ++ [best])

/-! ### `bpe_processor.py` framing -/

/-- `prepare_sequences`: each raw sequence becomes the word
`'<s> ' + ' '.join(seq) + ' </s>'`, counted with a `Counter`. -/
def frameB (seq : List Char) : List Char :=
  ['<', 's', '>', ' '] ++ spaceOut seq ++ [' ', '<', '/', 's', '>']

def prepare_sequences (seqs : List (List Char)) : Vocab :=
  seqs.foldl (fun acc s => cincr (frameB s) acc) []

/-- `BPEProcessor.learn_bpe`: learn up to `merges` codes from the sequences. -/
def learn_bpe (merges : Nat) (seqs : List (List Char)) :
    List (List Char × List Char) :=
  (learnSteps merges (prepare_sequences seqs) []).2

/-- `BPEProcessor.apply_bpe`: frame the sequence as in training, replay every
learned code in order with the same regex substitution, and split. -/
def apply_bpe (codes : List (List Char × List Char)) (seq : List Char) :
    List (List Char) :=
  splitWs (codes.foldl (fun w p => pySub p.1 p.2 w) (frameB seq))

/-! ### `standard_bpe.py` framing -/

/-- `get_word_tokens`: the word's characters followed by `'</w>'`. -/
def stdWordTokens (w : List Char) : List (List Char) :=
  w.map (fun c => [c]) ++ [['<', '/', 'w', '>']]

/-- `' '.join(get_word_tokens(word))`, the initial vocabulary key. -/
def stdFrame (w : List Char) : List Char := sjoin (stdWordTokens w)

/-- The initial vocabulary of `StandardBPE.learn_bpe` over the corpus words
(`corpus_text.strip().split()` has already been applied by the caller). -/
def stdInitVocab (words : List (List Char)) : Vocab :=
  words.foldl (fun acc w => cincr (stdFrame w) acc) []

/-- `StandardBPE.learn_bpe` on a pre-split corpus word list. -/
def std_learn_bpe (merges : Nat) (words : List (List Char)) :
    List (List Char × List Char) :=
  (learnSteps merges (stdInitVocab words) []).2

/-! ## Co-occurrence engine (`glove_cooccurrence.py`) -/

/-- Dict lookup in the `token_to_id` mapping. -/
def alookup : List (List Char × Nat) → List Char → Option Nat
  | [], _ => none
  | (k, i) :: rest, t => if t = k then some i else alookup rest t

/-- `token_ids`: convert tokens to ids, skipping tokens outside the mapping. -/
def filterIds (m : List (List Char × Nat)) (seq : List (List Char)) : List Nat :=
  seq.filterMap (alookup m)

/-- The symmetric storage key `(min(center_id, context_id), max(...))`. -/
def pairKey (a b : Nat) : Nat × Nat := (min a b, max a b)

/-- `abs(i - j)` on positions. -/
def pdist (i j : Nat) : Nat := if i ≤ j then j - i else i - j

/-- The accumulated co-occurrence table: `defaultdict(float)` keyed by
unordered id pairs, in insertion order, with exact rational weights. -/
abbrev CoTable := List ((Nat × Nat) × ℚ)

/-- `self.cooccurrence_counts[pair] += weight`. -/
def addW (k : Nat × Nat) (w : ℚ) : CoTable → CoTable
  | [] => [(k, w)]
  | (k', v) :: rest => if k = k' then (k', v + w) :: rest else (k', v) :: addW k w rest

/-- Table lookup with the `defaultdict` default `0`. -/
def lookupW : CoTable → Nat × Nat → ℚ
  | [], _ => 0
  | (k, v) :: rest, q => if q = k then v else lookupW rest q

/-- The window positions `range(max(0, i - w), min(len, i + w + 1))`
(natural subtraction gives the `max(0, ·)` clamp). -/
def winRange (w len i : Nat) : List Nat :=
  List.range' (i - w) (min len (i + w + 1) - (i - w))

/-- The two nested loops of `compute_cooccurrence` over one filtered id
sequence, accumulating into `t`. -/
def computeStream (w : Nat) (t : CoTable) (ids : List Nat) : CoTable :=
  (List.range ids.length).foldl (fun tb i =>
    (winRange w ids.length i).foldl (fun tb' j =>
      if i ≠ j then
        addW (pairKey (ids.getD i 0) (ids.getD j 0)) (1 / (pdist i j : ℚ)) tb'
      else tb') tb) t

/-- `CooccurrenceMatrix.compute_cooccurrence`: filter each stream through the
id mapping, slide the window, and accumulate all streams into one table. -/
def compute_cooccurrence (streams : List (List (List Char)))
    (m : List (List Char × Nat)) (w : Nat) : CoTable :=
  streams.foldl (fun tb s => computeStream w tb (filterIds m s)) []

/-- Written from the claim's words, to be compared with the code: the total
weight a key receives from one filtered stream, summing `1/|i-j|` over all
ordered position pairs `(i, j)` with `i ≠ j` and `|i - j| ≤ w` whose
unordered id pair is `key`. -/
def specPairWeight (ids : List Nat) (w : Nat) (key : Nat × Nat) : ℚ :=
  ((List.range ids.length).map (fun i =>
    ((List.range ids.length).map (fun j =>
      if i ≠ j ∧ pdist i j ≤ w ∧ pairKey (ids.getD i 0) (ids.getD j 0) = key
      then 1 / (pdist i j : ℚ) else 0)).sum)).sum

/-- Written from the claim's words: the global table value at `key`,
accumulated over all streams after filtering each through the mapping. -/
def specTable (streams : List (List (List Char))) (m : List (List Char × Nat))
    (w : Nat) (key : Nat × Nat) : ℚ :=
  (streams.map (fun s => specPairWeight (filterIds m s) w key)).sum

/-- Lexicographic strict order on symbol strings (used only to state the
tie-break comparison of claim C4). -/
def strLt : List Char → List Char → Bool
  | [], [] => false
  | [], _ :: _ => true
  | _ :: _, [] => false
  | a :: s, b :: t => if a < b then true else if a = b then strLt s t else false

/-- Lexicographic strict order on `(left, right)` symbol pairs. -/
def pairLt (p q : (List Char) × (List Char)) : Bool :=
  strLt p.1 q.1 || (p.1 = q.1 && strLt p.2 q.2)

/-- Total frequency mass of a training state. -/
def totalFreq (v : Vocab) : Nat := (v.map Prod.snd).sum

/-- The despaced keys of a training state (each key with every whitespace
character removed); merging never changes this list, which is why distinct
entries never collide. -/
def dkeys (v : Vocab) : List (List Char) := v.map (fun e => despace e.1)

/-- Training states reachable by the learners: an initial vocabulary built
from whitespace-free raw sequences (either framing) followed by any number
of merges. -/
inductive ReachableState : Vocab → Prop
  | initSeq : ∀ seqs : List (List Char), (∀ s ∈ seqs, wsfree s) →
      ReachableState (prepare_sequences seqs)
  | initWord : ∀ words : List (List Char), (∀ w ∈ words, wsfree w) →
      ReachableState (stdInitVocab words)
  | merge : ∀ (L R : List Char) (v : Vocab), ReachableState v →
      ReachableState (merge_vocab L R v)

/-- Number of adjacent positions of a filtered id sequence whose unordered
id pair is `key` (used to state the window-size-1 boundary property). -/
def adjKeyCount (ids : List Nat) (key : Nat × Nat) : Nat :=
  ((adjPairs ids).filter (fun p => pairKey p.1 p.2 = key)).length

/-! ## Scanner lemmas

`pySubC` is the scanner at its canonical fuel (the length of the scanned
string); `pySub L R = pySubC L R true`, definitionally. -/

def pySubC (L R : List Char) (b : Bool) (s : List Char) : List Char :=
  pySubGo L R s.length b s

theorem pySub_eq_pySubC (L R s : List Char) : pySub L R s = pySubC L R true s := rfl

theorem pySubGo_nil (L R : List Char) (f : Nat) (b : Bool) :
    pySubGo L R f b [] = [] := by
  cases f <;> rfl

theorem pySubGo_fuel_irrel (L R : List Char) :
    ∀ f₁ : Nat, ∀ f₂ b : _, ∀ s : List Char, s.length ≤ f₁ → s.length ≤ f₂ →
      pySubGo L R f₁ b s = pySubGo L R f₂ b s := by
  intro f₁
  induction f₁ using Nat.strong_induction_on with
  | _ f₁ ih =>
    intro f₂ b s h₁ h₂
    match s, f₁, f₂ with
    | [], g₁, g₂ => rw [pySubGo_nil, pySubGo_nil]
    | c :: rest, 0, _ => exact absurd h₁ (by simp)
    | c :: rest, _ + 1, 0 => exact absurd h₂ (by simp)
    | c :: rest, g₁ + 1, g₂ + 1 =>
      simp only [pySubGo]
      have hlen : (rest.drop (L.length + R.length)).length ≤ g₁ := by
        simp only [List.length_drop]
        simp only [List.length_cons] at h₁
        omega
      have hlen₂ : (rest.drop (L.length + R.length)).length ≤ g₂ := by
        simp only [List.length_drop]
        simp only [List.length_cons] at h₂
        omega
      have hrest₁ : rest.length ≤ g₁ := by simp only [List.length_cons] at h₁; omega
      have hrest₂ : rest.length ≤ g₂ := by simp only [List.length_cons] at h₂; omega
      split
      · rw [ih g₁ (by omega) g₂ _ _ hlen hlen₂]
      · rw [ih g₁ (by omega) g₂ _ _ hrest₁ hrest₂]

theorem pySubC_nil (L R : List Char) (b : Bool) : pySubC L R b [] = [] := rfl

/-- A pattern containing a space is never a literal prefix of a
whitespace-free string. -/
theorem startsWith_pat_wsfree (L R : List Char) :
    ∀ s : List Char, wsfree s → startsWith (L ++ ' ' :: R) s = false := by
  induction L with
  | nil =>
    intro s hs
    cases s with
    | nil => rfl
    | cons c cs =>
      simp only [List.nil_append, startsWith]
      have : isSp c = false := hs c (by simp)
      have hc : ¬ (' ' = c) := by
        intro h
        rw [← h] at this
        simp [isSp] at this
      simp [hc]
  | cons p ps ih =>
    intro s hs
    cases s with
    | nil => rfl
    | cons c cs =>
      simp only [List.cons_append, startsWith]
      split
      · exact ih cs (fun x hx => hs x (by simp [hx]))
      · rfl

/-- Scanning a whitespace-free string performs no substitution. -/
theorem pySubGo_wsfree (L R : List Char) :
    ∀ f b, ∀ s : List Char, wsfree s → pySubGo L R f b s = s := by
  intro f
  induction f with
  | zero => intro b s _; cases s <;> rfl
  | succ g ih =>
    intro b s hs
    cases s with
    | nil => rfl
    | cons c rest =>
      simp only [pySubGo]
      rw [if_neg]
      · rw [ih (isSp c) rest (fun x hx => hs x (by simp [hx]))]
      · rw [startsWith_pat_wsfree L R _ hs]
        simp

theorem pySubC_wsfree (L R : List Char) (b : Bool) (s : List Char)
    (hs : wsfree s) : pySubC L R b s = s :=
  pySubGo_wsfree L R _ b s hs

/-- With the boundary flag off, a whitespace-free run is copied verbatim. -/
theorem pySubC_skip (L R : List Char) :
    ∀ w z : List Char, wsfree w → pySubC L R false (w ++ z) = w ++ pySubC L R false z := by
  intro w
  induction w with
  | nil => intro z _; simp
  | cons c w' ih =>
    intro z hw
    have hc : isSp c = false := hw c (by simp)
    show pySubGo L R ((c :: (w' ++ z)).length) false (c :: (w' ++ z)) = _
    simp only [List.length_cons, pySubGo]
    rw [if_neg (by simp)]
    rw [pySubGo_fuel_irrel L R _ (w' ++ z).length _ _ (le_refl _) (le_refl _), hc]
    rw [show pySubGo L R (w' ++ z).length false (w' ++ z) = pySubC L R false (w' ++ z) from rfl]
    rw [ih z (fun x hx => hw x (by simp [hx]))]
    simp

/-- With the boundary flag off, a space is copied and turns the flag on. -/
theorem pySubC_space (L R : List Char) (z : List Char) :
    pySubC L R false (' ' :: z) = ' ' :: pySubC L R true z := by
  show pySubGo L R (' ' :: z).length false (' ' :: z) = _
  simp only [List.length_cons, pySubGo]
  rw [if_neg (by simp)]
  have : isSp ' ' = true := by decide
  rw [this]
  rfl

theorem startsWith_append_self (p t : List Char) :
    startsWith p (p ++ t) = true := by
  induction p with
  | nil => rfl
  | cons c cs ih => simpa [startsWith] using ih

/-- `startsWith p s` means `s` literally extends `p`. -/
theorem startsWith_iff (p : List Char) :
    ∀ s, startsWith p s = true ↔ ∃ t, s = p ++ t := by
  induction p with
  | nil => intro s; simp [startsWith]
  | cons c cs ih =>
    intro s
    cases s with
    | nil => simp [startsWith]
    | cons d ds =>
      simp only [startsWith]
      constructor
      · intro h
        split at h
        · next hcd =>
          obtain ⟨t, ht⟩ := (ih ds).mp h
          exact ⟨t, by simp [hcd, ht]⟩
        · simp at h
      · rintro ⟨t, ht⟩
        simp only [List.cons_append, List.cons.injEq] at ht
        rw [if_pos ht.1.symm]
        exact (ih ds).mpr ⟨t, ht.2⟩

/-- The scanner's match step: when the look-behind flag is on and the pattern
matches with a valid look-ahead, the replacement is emitted and scanning
resumes after the matched text. -/
theorem pySubC_match (L R : List Char) (s : List Char)
    (hpre : startsWith (L ++ ' ' :: R) s = true)
    (hafter : lookAfter (s.drop (L.length + R.length + 1)) = true) :
    pySubC L R true s =
      (L ++ R) ++ pySubC L R (afterFlag R) (s.drop (L.length + R.length + 1)) := by
  cases s with
  | nil =>
    obtain ⟨t, ht⟩ := (startsWith_iff _ _).mp hpre
    simp at ht
  | cons c rest =>
    show pySubGo L R (c :: rest).length true (c :: rest) = _
    simp only [List.length_cons, pySubGo]
    rw [if_pos]
    · have hdrop : rest.drop (L.length + R.length) = (c :: rest).drop (L.length + R.length + 1) := by
        simp [List.drop_succ_cons]
      rw [hdrop]
      congr 1
      apply pySubGo_fuel_irrel
      · simp only [List.length_drop, List.length_cons]; omega
      · exact le_refl _
    · refine ⟨by trivial, hpre, ?_⟩
      rw [show rest.drop (L.length + R.length) = (c :: rest).drop (L.length + R.length + 1) by
        simp [List.drop_succ_cons]]
      exact hafter

/-- The scanner's non-match step: the head character is copied. -/
theorem pySubC_miss (L R : List Char) (c : Char) (rest : List Char)
    (h : ¬ (startsWith (L ++ ' ' :: R) (c :: rest) = true ∧
        lookAfter ((c :: rest).drop (L.length + R.length + 1)) = true)) :
    pySubC L R true (c :: rest) = c :: pySubC L R (isSp c) rest := by
  show pySubGo L R (c :: rest).length true (c :: rest) = _
  simp only [List.length_cons, pySubGo]
  rw [if_neg]
  · rfl
  · rintro ⟨-, h₁, h₂⟩
    exact h ⟨h₁, by rwa [show (c :: rest).drop (L.length + R.length + 1) =
      rest.drop (L.length + R.length) by simp [List.drop_succ_cons]]⟩

/-- For nonempty whitespace-free `R`, the character preceding the scanner's
resume position (the last character of `R`) is not whitespace. -/
theorem afterFlag_eq_false (R : List Char) (hne : R ≠ []) (hw : wsfree R) :
    afterFlag R = false := by
  unfold afterFlag
  match hR : R.getLast? with
  | none => exact absurd (List.getLast?_eq_none_iff.mp hR) hne
  | some c =>
    have : c ∈ R := List.mem_of_mem_getLast? (by rw [hR]; exact rfl)
    exact hw c this

theorem drop_app (u : List Char) : ∀ (v : List Char) (n : Nat),
    (u ++ v).drop (u.length + n) = v.drop n := by
  induction u with
  | nil => intro v n; simp
  | cons c u' ih =>
    intro v n
    have : (c :: u').length + n = (u'.length + n) + 1 := by simp; omega
    rw [this, List.cons_append, List.drop_succ_cons, ih]

/-- Alignment of the pattern's space with the first separator: if the
pattern `L ++ ' ' :: R` is a literal prefix of `w ++ ' ' :: v` with `L` and
`w` whitespace-free, then `L = w` and `R` is a prefix of `v`. -/
theorem align_left (L : List Char) :
    ∀ w v R : List Char, wsfree L → wsfree w →
      startsWith (L ++ ' ' :: R) (w ++ ' ' :: v) = true →
      L = w ∧ startsWith R v = true := by
  induction L with
  | nil =>
    intro w v R _ hw h
    cases w with
    | nil => exact ⟨rfl, by simpa [startsWith] using h⟩
    | cons a w' =>
      simp only [List.nil_append, List.cons_append, startsWith] at h
      split at h
      · next heq =>
        have : isSp a = false := hw a (by simp)
        rw [← heq] at this
        simp [isSp] at this
      · simp at h
  | cons b L' ih =>
    intro w v R hL hw h
    cases w with
    | nil =>
      simp only [List.cons_append, List.nil_append, startsWith] at h
      split at h
      · next heq =>
        have : isSp b = false := hL b (by simp)
        rw [heq] at this
        simp [isSp] at this
      · simp at h
    | cons a w' =>
      simp only [List.cons_append, startsWith] at h
      split at h
      · next heq =>
        obtain ⟨h₁, h₂⟩ := ih w' v R (fun x hx => hL x (by simp [hx]))
          (fun x hx => hw x (by simp [hx])) h
        exact ⟨by rw [heq, h₁], h₂⟩
      · simp at h

/-- Alignment on the right component: a whitespace-free nonempty `R` that is
a literal prefix of `w ++ rest` — where `w` is a whitespace-free nonempty
word and `rest` is empty or starts with a space — and whose end satisfies
the look-ahead, must be the whole word `w`. -/
theorem align_right (R : List Char) :
    ∀ w rest : List Char, R ≠ [] → wsfree R → w ≠ [] → wsfree w →
      (rest = [] ∨ ∃ t, rest = ' ' :: t) →
      startsWith R (w ++ rest) = true →
      lookAfter ((w ++ rest).drop R.length) = true →
      R = w := by
  induction R with
  | nil => intro w rest hne; exact absurd rfl hne
  | cons c R' ih =>
    intro w rest _ hRw hwne hww hrest hpre hafter
    cases w with
    | nil => exact absurd rfl hwne
    | cons a w' =>
      simp only [List.cons_append, startsWith] at hpre
      split at hpre
      · next heq =>
        have hdrop : ((a :: (w' ++ rest))).drop (c :: R').length =
            (w' ++ rest).drop R'.length := by
          simp [List.drop_succ_cons]
        rw [List.cons_append] at hafter
        rw [hdrop] at hafter
        cases R' with
        | nil =>
          cases w' with
          | nil => rw [heq]
          | cons d w'' =>
            simp only [List.length_nil, List.drop_zero] at hafter
            simp only [List.cons_append, lookAfter] at hafter
            have : isSp d = false := hww d (by simp)
            rw [this] at hafter
            exact absurd hafter (by simp)
        | cons e R'' =>
          cases w' with
          | nil =>
            rw [show List.append ([] : List Char) rest = rest from rfl] at hpre
            rcases hrest with h | ⟨t, ht⟩
            · rw [h] at hpre; simp [startsWith] at hpre
            · rw [ht] at hpre
              simp only [startsWith] at hpre
              split at hpre
              · next heq' =>
                have : isSp e = false := hRw e (by simp)
                rw [heq'] at this
                simp [isSp] at this
              · simp at hpre
          | cons d w'' =>
            have := ih (d :: w'') rest (by simp) (fun x hx => hRw x (by simp [hx]))
              (by simp) (fun x hx => hww x (by simp [hx])) hrest hpre hafter
            rw [heq, this]
      · simp at hpre

/-- At the start of a word pair other than `(L, R)`, the scanner does not
match: the regex occurrence would have to align `L` with the first word and
`R` with the second. -/
theorem noMatchAt (L R w1 w2 rest : List Char)
    (hL : L ≠ []) (hLw : wsfree L) (hR : R ≠ []) (hRw : wsfree R)
    (h1 : w1 ≠ []) (h1w : wsfree w1) (h2 : w2 ≠ []) (h2w : wsfree w2)
    (hrest : rest = [] ∨ ∃ t, rest = ' ' :: t)
    (hne : ¬ (w1 = L ∧ w2 = R)) :
    ¬ (startsWith (L ++ ' ' :: R) (w1 ++ ' ' :: (w2 ++ rest)) = true ∧
       lookAfter ((w1 ++ ' ' :: (w2 ++ rest)).drop (L.length + R.length + 1)) = true) := by
  rintro ⟨hpre, hafter⟩
  obtain ⟨hLw1, hRpre⟩ := align_left L w1 (w2 ++ rest) R hLw h1w hpre
  have hdrop : (w1 ++ ' ' :: (w2 ++ rest)).drop (L.length + R.length + 1) =
      (w2 ++ rest).drop R.length := by
    rw [hLw1]
    have harith : w1.length + R.length + 1 = w1.length + (R.length + 1) := by omega
    rw [harith, drop_app w1 (' ' :: (w2 ++ rest)) (R.length + 1), List.drop_succ_cons]
  rw [hdrop] at hafter
  have : R = w2 := align_right R w2 rest hR hRw h2 h2w hrest hRpre hafter
  exact hne ⟨hLw1.symm, this.symm⟩

theorem mergeTokens_ne_nil (L R : List Char) :
    ∀ ts : List (List Char), ts ≠ [] → mergeTokens L R ts ≠ [] := by
  intro ts hne
  match ts with
  | [t] => simp [mergeTokens]
  | t1 :: t2 :: rest =>
    simp only [mergeTokens]
    split <;> simp

theorem sjoin_cons (w : List Char) (ws : List (List Char)) (h : ws ≠ []) :
    sjoin (w :: ws) = w ++ ' ' :: sjoin ws := by
  cases ws with
  | nil => exact absurd rfl h
  | cons x t => rfl

/-- Core equivalence: one regex pass over the space-joined token list equals
the space-join of the exact-adjacency splice. -/
theorem pySubC_sjoin (L R : List Char) (hL : L ≠ []) (hLw : wsfree L)
    (hR : R ≠ []) (hRw : wsfree R) :
    ∀ n : Nat, ∀ ts : List (List Char), ts.length ≤ n →
      (∀ t ∈ ts, t ≠ [] ∧ wsfree t) →
      pySubC L R true (sjoin ts) = sjoin (mergeTokens L R ts) := by
  intro n
  induction n with
  | zero =>
    intro ts hlen _
    have hts : ts = [] := List.length_eq_zero.mp (Nat.le_zero.mp hlen)
    subst hts
    rfl
  | succ m ih =>
    intro ts hlen hgood
    rcases ts with - | ⟨w1, ts'⟩
    · rfl
    rcases ts' with - | ⟨w2, rest⟩
    · -- single word: a pattern containing a space cannot match inside it
      have hw := hgood w1 (by simp)
      show pySubC L R true (sjoin [w1]) = sjoin (mergeTokens L R [w1])
      simp only [sjoin, mergeTokens]
      exact pySubC_wsfree L R true w1 hw.2
    have h1 := hgood w1 (by simp)
    have h2 := hgood w2 (by simp)
    have hgood2 : ∀ t ∈ w2 :: rest, t ≠ [] ∧ wsfree t := by
      intro t ht
      exact hgood t (List.mem_cons_of_mem _ ht)
    by_cases hmatch : w1 = L ∧ w2 = R
    · obtain ⟨e1, e2⟩ := hmatch
      rw [e1, e2]
      rcases rest with - | ⟨r1, rest'⟩
      · -- the two words are exactly the pattern
        have hpre : startsWith (L ++ ' ' :: R) (sjoin [L, R]) = true := by
          rw [show sjoin [L, R] = (L ++ ' ' :: R) ++ [] by simp [sjoin]]
          exact startsWith_append_self _ _
        have hdrop : (sjoin [L, R]).drop (L.length + R.length + 1) = [] := by
          apply List.drop_eq_nil_of_le
          simp [sjoin]
          omega
        rw [pySubC_match L R _ hpre (by rw [hdrop]; rfl)]
        rw [hdrop, pySubC_nil]
        rw [show mergeTokens L R [L, R] = [L ++ R] from by
          simp [mergeTokens]]
        simp [sjoin]
      · -- match at the head, then continue after the separator
        have hs : sjoin (L :: R :: r1 :: rest') = (L ++ ' ' :: R) ++ (' ' :: sjoin (r1 :: rest')) := by
          rw [sjoin_cons _ _ (by simp), sjoin_cons _ _ (by simp)]
          simp
        rw [hs]
        have hpre := startsWith_append_self (L ++ ' ' :: R) (' ' :: sjoin (r1 :: rest'))
        have hdroplen : ((L ++ ' ' :: R) ++ (' ' :: sjoin (r1 :: rest'))).drop
            (L.length + R.length + 1) = ' ' :: sjoin (r1 :: rest') := by
          rw [show L.length + R.length + 1 = (L ++ ' ' :: R).length + 0 from by simp; omega]
          rw [drop_app]
          rfl
        rw [pySubC_match L R _ hpre (by rw [hdroplen]; rfl)]
        rw [hdroplen, afterFlag_eq_false R hR hRw, pySubC_space]
        rw [ih (r1 :: rest') (by simp at hlen ⊢; omega)
          (fun t ht => hgood t (by simp at ht ⊢; tauto))]
        rw [show mergeTokens L R (L :: R :: r1 :: rest') =
            (L ++ R) :: mergeTokens L R (r1 :: rest') from by
          simp [mergeTokens]]
        rw [sjoin_cons _ _ (mergeTokens_ne_nil L R _ (by simp))]
    · -- no match at the head of `w1`: copy it and the separator
      obtain ⟨tail, htail, htailok⟩ :
          ∃ tail, sjoin (w2 :: rest) = w2 ++ tail ∧
            (tail = [] ∨ ∃ t, tail = ' ' :: t) := by
        rcases rest with - | ⟨r1, rest'⟩
        · exact ⟨[], by simp [sjoin], Or.inl rfl⟩
        · exact ⟨' ' :: sjoin (r1 :: rest'), by rw [sjoin_cons _ _ (by simp)], Or.inr ⟨_, rfl⟩⟩
      rcases hw1 : w1 with - | ⟨c, w1'⟩
      · exact absurd hw1 h1.1
      subst hw1
      have hnm := noMatchAt L R (c :: w1') w2 tail hL hLw hR hRw
        (by simp) h1.2 h2.1 h2.2 htailok hmatch
      have hs : sjoin ((c :: w1') :: w2 :: rest) = c :: (w1' ++ ' ' :: (w2 ++ tail)) := by
        rw [sjoin_cons _ _ (by simp), htail]
        simp
      rw [hs]
      rw [pySubC_miss L R c _ (by
        intro hcontr
        apply hnm
        rw [show (c :: w1') ++ ' ' :: (w2 ++ tail) = c :: (w1' ++ ' ' :: (w2 ++ tail)) from by simp]
        exact hcontr)]
      rw [show isSp c = false from h1.2 c (by simp)]
      rw [pySubC_skip L R w1' (' ' :: (w2 ++ tail)) (fun x hx => h1.2 x (by simp [hx]))]
      rw [pySubC_space, ← htail]
      rw [ih (w2 :: rest) (by simp at hlen ⊢; omega) hgood2]
      rw [show mergeTokens L R ((c :: w1') :: w2 :: rest) =
          (c :: w1') :: mergeTokens L R (w2 :: rest) from by
        simp only [mergeTokens, if_neg hmatch]]
      rw [sjoin_cons _ _ (mergeTokens_ne_nil L R _ (by simp))]
      simp

theorem splitWsAux_word (w : List Char) :
    ∀ acc z, wsfree w → splitWsAux acc (w ++ z) = splitWsAux (w.reverse ++ acc) z := by
  induction w with
  | nil => intro acc z _; simp
  | cons c w' ih =>
    intro acc z hw
    have hc : isSp c = false := hw c (by simp)
    show splitWsAux acc (c :: (w' ++ z)) = _
    rw [show splitWsAux acc (c :: (w' ++ z)) =
        if isSp c = true then
          (if acc.isEmpty = true then splitWsAux [] (w' ++ z)
           else acc.reverse :: splitWsAux [] (w' ++ z))
        else splitWsAux (c :: acc) (w' ++ z) from rfl]
    rw [hc]
    simp only [Bool.false_eq_true, if_false]
    rw [ih (c :: acc) z (fun x hx => hw x (by simp [hx]))]
    simp

theorem splitWsAux_nil_arg (acc : List Char) :
    splitWsAux acc [] = if acc.isEmpty = true then [] else [acc.reverse] := rfl

theorem splitWsAux_cons_arg (acc : List Char) (c : Char) (rest : List Char) :
    splitWsAux acc (c :: rest) =
      if isSp c = true then
        (if acc.isEmpty = true then splitWsAux [] rest
         else acc.reverse :: splitWsAux [] rest)
      else splitWsAux (c :: acc) rest := rfl

/-- Splitting the space-join of nonempty whitespace-free words recovers
exactly the word list. -/
theorem splitWs_sjoin : ∀ ts : List (List Char),
    (∀ t ∈ ts, t ≠ [] ∧ wsfree t) → splitWs (sjoin ts) = ts := by
  intro ts
  induction ts with
  | nil => intro _; rfl
  | cons w ws ih =>
    intro hgood
    have hw := hgood w (by simp)
    have hwr : w.reverse.isEmpty = false := by
      rcases h : w.reverse with - | ⟨d, ds⟩
      · exact absurd (by simpa using congrArg List.reverse h) hw.1
      · rfl
    rcases ws with - | ⟨x, rest⟩
    · show splitWsAux [] (sjoin [w]) = [w]
      have h0 : sjoin [w] = w ++ [] := by simp [sjoin]
      rw [h0, splitWsAux_word w [] [] hw.2, List.append_nil, splitWsAux_nil_arg, hwr]
      simp
    · show splitWsAux [] (sjoin (w :: x :: rest)) = w :: x :: rest
      rw [sjoin_cons _ _ (by simp), splitWsAux_word w [] (' ' :: sjoin (x :: rest)) hw.2,
        List.append_nil, splitWsAux_cons_arg]
      rw [show isSp ' ' = true from by decide, if_pos rfl, hwr]
      rw [if_neg (by simp), List.reverse_reverse]
      rw [show splitWsAux [] (sjoin (x :: rest)) = splitWs (sjoin (x :: rest)) from rfl]
      rw [ih (fun t ht => hgood t (List.mem_cons_of_mem _ ht))]

/-- The splice produces nonempty whitespace-free tokens from such tokens. -/
theorem mergeTokens_good (L R : List Char) (hL : L ≠ []) (hLw : wsfree L)
    (hRw : wsfree R) :
    ∀ n : Nat, ∀ ts : List (List Char), ts.length ≤ n →
      (∀ t ∈ ts, t ≠ [] ∧ wsfree t) →
      ∀ t ∈ mergeTokens L R ts, t ≠ [] ∧ wsfree t := by
  intro n
  induction n with
  | zero =>
    intro ts hlen _
    have hts : ts = [] := List.length_eq_zero.mp (Nat.le_zero.mp hlen)
    subst hts
    intro t ht
    simp [mergeTokens] at ht
  | succ m ih =>
    intro ts hlen hgood t ht
    rcases ts with - | ⟨t1, ts'⟩
    · simp [mergeTokens] at ht
    rcases ts' with - | ⟨t2, rest⟩
    · simp only [mergeTokens] at ht
      rw [List.mem_singleton] at ht
      subst ht
      exact hgood t (by simp)
    simp only [mergeTokens] at ht
    split at ht
    · rcases List.mem_cons.mp ht with h | h
      · subst h
        constructor
        · simp [hL]
        · intro x hx
          rcases List.mem_append.mp hx with h' | h'
          · exact hLw x h'
          · exact hRw x h'
      · exact ih rest (by simp at hlen ⊢; omega)
          (fun u hu => hgood u (by simp [hu])) t h
    · rcases List.mem_cons.mp ht with h | h
      · subst h
        exact hgood t (by simp)
      · exact ih (t2 :: rest) (by simp at hlen ⊢; omega)
          (fun u hu => hgood u (by simp at hu ⊢; tauto)) t h

/-- C1: every merge application — the learner's per-iteration rewrite
(`merge_vocab`) and each replay step of the tokenizer (`apply_bpe`) — is,
on the space-joined rendering of any list of (nonempty) whitespace-free
tokens and for any (nonempty) whitespace-free pair `(L, R)`, extensionally
equal to the exact-adjacency splice: the regex pass equals the space-join
of the splice, and re-splitting it yields exactly the spliced token list —
so the pair is replaced only where `L` and `R` occur as two complete
adjacent tokens, scanning left to right over non-overlapping occurrences,
and every token not consumed by such an occurrence is unchanged. -/
theorem merge_exact_adjacency (L R : List Char) (ts : List (List Char))
    (hL : L ≠ []) (hLw : wsfree L) (hR : R ≠ []) (hRw : wsfree R)
    (hts : ∀ t ∈ ts, t ≠ [] ∧ wsfree t) :
    pySub L R (sjoin ts) = sjoin (mergeTokens L R ts) ∧
    splitWs (pySub L R (sjoin ts)) = mergeTokens L R ts := by
  have h₁ : pySub L R (sjoin ts) = sjoin (mergeTokens L R ts) := by
    rw [pySub_eq_pySubC]
    exact pySubC_sjoin L R hL hLw hR hRw ts.length ts (le_refl _) hts
  refine ⟨h₁, ?_⟩
  rw [h₁]
  exact splitWs_sjoin _ (mergeTokens_good L R hL hLw hRw ts.length ts (le_refl _) hts)

theorem merge_exact_adjacency_witness :
    (∀ t ∈ ([['A'], ['B'], ['A'], ['A'], ['B']] : List (List Char)), t ≠ [] ∧ wsfree t) ∧
    (pySub ['A'] ['B'] (sjoin [['A'], ['B'], ['A'], ['A'], ['B']]) =
      sjoin (mergeTokens ['A'] ['B'] [['A'], ['B'], ['A'], ['A'], ['B']]) ∧
     splitWs (pySub ['A'] ['B'] (sjoin [['A'], ['B'], ['A'], ['A'], ['B']])) =
      mergeTokens ['A'] ['B'] [['A'], ['B'], ['A'], ['A'], ['B']]) :=
  ⟨by decide, merge_exact_adjacency ['A'] ['B'] [['A'], ['B'], ['A'], ['A'], ['B']]
    (by decide) (by decide) (by decide) (by decide) (by decide)⟩

/-! ## Content preservation: the substitution never changes the despaced text -/

theorem despace_append (u v : List Char) :
    despace (u ++ v) = despace u ++ despace v := by
  simp [despace, List.filter_append]

theorem despace_cons_sp (c : Char) (s : List Char) (h : isSp c = true) :
    despace (c :: s) = despace s := by
  simp [despace, List.filter_cons, h]

theorem despace_cons_nonsp (c : Char) (s : List Char) (h : isSp c = false) :
    despace (c :: s) = c :: despace s := by
  simp [despace, List.filter_cons, h]

/-- Each substitution step replaces `L ++ ' ' :: R` by `L ++ R`: the only
change is the removal of one space, so the despaced text is invariant —
for arbitrary `L` and `R`. -/
theorem despace_pySubGo (L R : List Char) :
    ∀ f : Nat, ∀ b : Bool, ∀ s : List Char,
      despace (pySubGo L R f b s) = despace s := by
  intro f
  induction f with
  | zero => intro b s; cases s <;> rfl
  | succ g ih =>
    intro b s
    cases s with
    | nil => rfl
    | cons c rest =>
      simp only [pySubGo]
      split
      · next hcond =>
        obtain ⟨-, hpre, -⟩ := hcond
        obtain ⟨t, ht⟩ := (startsWith_iff _ _).mp hpre
        have hdrop : rest.drop (L.length + R.length) = t := by
          have : (c :: rest) = (L ++ ' ' :: R) ++ t := ht
          have h2 := congrArg (List.drop (L.length + R.length + 1)) this
          rw [show L.length + R.length + 1 = (L ++ ' ' :: R).length + 0 from by simp; omega]
            at h2
          rw [drop_app] at h2
          simpa [List.drop_succ_cons] using h2
        rw [despace_append, ih, hdrop, ht, despace_append L R,
          despace_append (L ++ ' ' :: R) t, despace_append L (' ' :: R),
          despace_cons_sp ' ' _ (by decide)]
      · rcases hc : isSp c with - | -
        · rw [despace_cons_nonsp c _ hc, despace_cons_nonsp c _ hc, ih]
        · rw [despace_cons_sp c _ hc, despace_cons_sp c _ hc, ih]

theorem despace_pySub (L R s : List Char) :
    despace (pySub L R s) = despace s :=
  despace_pySubGo L R s.length true s

/-- Replaying any rule list never changes the despaced text. -/
theorem despace_foldl_rules (rules : List (List Char × List Char)) :
    ∀ s : List Char,
      despace (rules.foldl (fun w p => pySub p.1 p.2 w) s) = despace s := by
  induction rules with
  | nil => intro s; rfl
  | cons r rs ih =>
    intro s
    rw [List.foldl_cons, ih, despace_pySub]

theorem concatTokens_cons (t : List Char) (ts : List (List Char)) :
    concatTokens (t :: ts) = t ++ concatTokens ts := rfl

/-- Concatenating `split()`'s tokens yields the string with all whitespace
removed. -/
theorem concat_splitWsAux :
    ∀ s acc : List Char, concatTokens (splitWsAux acc s) = acc.reverse ++ despace s := by
  intro s
  induction s with
  | nil =>
    intro acc
    rw [splitWsAux_nil_arg]
    rcases acc with - | ⟨a, as⟩
    · rfl
    · show concatTokens [(a :: as).reverse] = (a :: as).reverse ++ despace []
      rw [show despace [] = [] from rfl, concatTokens_cons]
      rfl
  | cons c rest ih =>
    intro acc
    rw [splitWsAux_cons_arg]
    rcases hc : isSp c with - | -
    · simp only [Bool.false_eq_true, if_false]
      rw [ih (c :: acc), despace_cons_nonsp c _ hc]
      simp
    · simp only [if_true]
      rw [despace_cons_sp c _ hc]
      rcases acc with - | ⟨a, as⟩
      · simp only [List.isEmpty_nil, if_true]
        rw [ih []]
      · simp only [List.isEmpty_cons, Bool.false_eq_true, if_false]
        rw [concatTokens_cons, ih []]
        simp

theorem concat_splitWs (s : List Char) :
    concatTokens (splitWs s) = despace s := by
  rw [splitWs, concat_splitWsAux s []]
  rfl

theorem despace_spaceOut : ∀ s : List Char, despace (spaceOut s) = despace s := by
  intro s
  match s with
  | [] => rfl
  | [c] => rfl
  | c :: d :: rest =>
    show despace (c :: ' ' :: spaceOut (d :: rest)) = despace (c :: d :: rest)
    rcases hc : isSp c with - | -
    · rw [despace_cons_nonsp c _ hc, despace_cons_sp ' ' _ (by decide),
        despace_spaceOut (d :: rest), despace_cons_nonsp c _ hc]
    · rw [despace_cons_sp c _ hc, despace_cons_sp ' ' _ (by decide),
        despace_spaceOut (d :: rest), despace_cons_sp c _ hc]

theorem despace_wsfree (s : List Char) (h : wsfree s) : despace s = s := by
  apply List.filter_eq_self.mpr
  intro a ha
  simp [h a ha]

theorem despace_frameB (seq : List Char) (h : wsfree seq) :
    despace (frameB seq) = ['<', 's', '>'] ++ seq ++ ['<', '/', 's', '>'] := by
  unfold frameB
  rw [despace_append, despace_append, despace_spaceOut, despace_wsfree seq h]
  rw [show despace ['<', 's', '>', ' '] = ['<', 's', '>'] from by decide]
  rw [show despace [' ', '<', '/', 's', '>'] = ['<', '/', 's', '>'] from by decide]

/-- C8: for every whitespace-free input sequence and every rule list,
concatenating the tokens returned by `apply_bpe` yields exactly the
sentinel-framed rendering `'<s>' + seq + '</s>'` — equivalently, stripping
the sentinels reproduces the sequence. -/
theorem apply_bpe_reconstruction (seq : List Char)
    (rules : List (List Char × List Char)) (hws : wsfree seq) :
    concatTokens (apply_bpe rules seq) =
      ['<', 's', '>'] ++ seq ++ ['<', '/', 's', '>'] := by
  unfold apply_bpe
  rw [concat_splitWs, despace_foldl_rules, despace_frameB seq hws]

theorem apply_bpe_reconstruction_witness :
    wsfree ['G', 'A', 'T'] ∧
    concatTokens (apply_bpe [(['G'], ['A'])] ['G', 'A', 'T']) =
      ['<', 's', '>'] ++ ['G', 'A', 'T'] ++ ['<', '/', 's', '>'] :=
  ⟨by decide, apply_bpe_reconstruction ['G', 'A', 'T'] [(['G'], ['A'])] (by decide)⟩

/-! ## Dictionary collision-freedom of reachable training states -/

theorem concatTokens_append (ts us : List (List Char)) :
    concatTokens (ts ++ us) = concatTokens ts ++ concatTokens us := by
  induction ts with
  | nil => rfl
  | cons t ts' ih => rw [List.cons_append, concatTokens_cons, concatTokens_cons, ih,
      List.append_assoc]

theorem despace_sjoin : ∀ ts : List (List Char),
    despace (sjoin ts) = concatTokens (ts.map despace) := by
  intro ts
  match ts with
  | [] => rfl
  | [w] =>
    show despace w = concatTokens [despace w]
    rw [concatTokens_cons]
    simp [concatTokens]
  | w :: x :: rest =>
    show despace (w ++ ' ' :: sjoin (x :: rest)) = _
    rw [despace_append, despace_cons_sp ' ' _ (by decide), despace_sjoin (x :: rest)]
    rfl

theorem despace_map_singletons (w : List Char) (h : wsfree w) :
    concatTokens ((w.map (fun c => [c])).map despace) = w := by
  induction w with
  | nil => rfl
  | cons c w' ih =>
    simp only [List.map_cons, concatTokens_cons]
    rw [despace_cons_nonsp c [] (h c (by simp)),
      ih (fun x hx => h x (by simp [hx]))]
    rfl

theorem despace_stdFrame (w : List Char) (h : wsfree w) :
    despace (stdFrame w) = w ++ ['<', '/', 'w', '>'] := by
  unfold stdFrame stdWordTokens
  rw [despace_sjoin, List.map_append, concatTokens_append, despace_map_singletons w h]
  rw [show ([['<', '/', 'w', '>']] : List (List Char)).map despace =
    [['<', '/', 'w', '>']] from by decide]
  rfl

theorem dkeys_eq (v : Vocab) : dkeys v = (v.map Prod.fst).map despace := by
  simp [dkeys, List.map_map]

theorem cincr_key_not_mem (k : List Char) :
    ∀ acc : Vocab, k ∉ acc.map Prod.fst → cincr k acc = acc ++ [(k, 1)] := by
  intro acc
  induction acc with
  | nil => intro _; rfl
  | cons e rest ih =>
    intro h
    simp only [List.map_cons, List.mem_cons] at h
    push_neg at h
    show cincr k (e :: rest) = _
    rcases e with ⟨k', n⟩
    simp only [cincr]
    rw [if_neg h.1, ih h.2]
    rfl

theorem cincr_key_mem (k : List Char) :
    ∀ acc : Vocab, k ∈ acc.map Prod.fst →
      (cincr k acc).map Prod.fst = acc.map Prod.fst := by
  intro acc
  induction acc with
  | nil => intro h; simp at h
  | cons e rest ih =>
    intro h
    rcases e with ⟨k', n⟩
    simp only [cincr]
    by_cases hk : k = k'
    · rw [if_pos hk]
      simp [hk]
    · rw [if_neg hk]
      simp only [List.map_cons, List.mem_cons] at h
      rcases h with h | h
      · exact absurd h hk
      · simp [ih h]

/-- Building a `Counter` over framed sequences yields despace-distinct keys,
provided the framing is injective through `despace` on admissible inputs. -/
theorem cincr_fold_inv (F : List Char → List Char) (Q : List Char → Prop)
    (hinj : ∀ s t, Q s → Q t → despace (F s) = despace (F t) → F s = F t) :
    ∀ seqs : List (List Char), ∀ acc : Vocab, (∀ s ∈ seqs, Q s) →
      (dkeys acc).Nodup → (∀ k ∈ acc.map Prod.fst, ∃ s, Q s ∧ k = F s) →
      (dkeys (seqs.foldl (fun a s => cincr (F s) a) acc)).Nodup ∧
      (∀ k ∈ (seqs.foldl (fun a s => cincr (F s) a) acc).map Prod.fst,
        ∃ s, Q s ∧ k = F s) := by
  intro seqs
  induction seqs with
  | nil => intro acc _ h1 h2; exact ⟨h1, h2⟩
  | cons s ss ih =>
    intro acc hq h1 h2
    rw [List.foldl_cons]
    by_cases hmem : F s ∈ acc.map Prod.fst
    · have hkeys := cincr_key_mem (F s) acc hmem
      apply ih (cincr (F s) acc) (fun x hx => hq x (by simp [hx]))
      · rw [dkeys_eq, hkeys, ← dkeys_eq]
        exact h1
      · rw [hkeys]
        exact h2
    · rw [cincr_key_not_mem (F s) acc hmem]
      apply ih _ (fun x hx => hq x (by simp [hx]))
      · rw [dkeys_eq, List.map_append, List.map_append, ← dkeys_eq]
        rw [show (([(F s, 1)] : Vocab).map Prod.fst).map despace = [despace (F s)] from rfl]
        rw [List.nodup_append]
        refine ⟨h1, by simp, ?_⟩
        intro a ha
        rw [dkeys_eq] at ha
        obtain ⟨k, hk, hdk⟩ := List.mem_map.mp ha
        obtain ⟨t, hQt, hkF⟩ := h2 k hk
        simp only [List.mem_singleton]
        intro heq
        have : F t = F s := hinj t s hQt (hq s (by simp)) (by rw [← hkF, hdk, heq])
        rw [← this, ← hkF] at hmem
        exact hmem hk
      · intro k hk
        rw [List.map_append] at hk
        rcases List.mem_append.mp hk with h | h
        · exact h2 k h
        · simp only [List.map_cons, List.map_nil, List.mem_singleton] at h
          exact ⟨s, hq s (by simp), h⟩

theorem dinsert_fresh (k : List Char) (n : Nat) :
    ∀ acc : Vocab, (∀ e ∈ acc, e.1 ≠ k) → dinsert k n acc = acc ++ [(k, n)] := by
  intro acc
  induction acc with
  | nil => intro _; rfl
  | cons e rest ih =>
    intro h
    rcases e with ⟨k', m⟩
    simp only [dinsert]
    rw [if_neg (fun heq => (h (k', m) (by simp)) heq.symm), ih (fun x hx => h x (by simp [hx]))]
    rfl

/-- When the despaced keys are pairwise distinct, `merge_vocab` never
collides: every entry is mapped in place. -/
theorem merge_fold_eq (L R : List Char) :
    ∀ v acc : Vocab, (dkeys acc ++ dkeys v).Nodup →
      v.foldl (fun a e => dinsert (pySub L R e.1) e.2 a) acc =
      acc ++ v.map (fun e => (pySub L R e.1, e.2)) := by
  intro v
  induction v with
  | nil => intro acc _; simp
  | cons e v' ih =>
    intro acc hnd
    rw [List.foldl_cons]
    have hfresh : ∀ a ∈ acc, a.1 ≠ pySub L R e.1 := by
      intro a ha heq
      have hd : despace a.1 = despace e.1 := by
        rw [heq, despace_pySub]
      have hdisj := (List.nodup_append.mp (by
        rw [show dkeys (e :: v') = despace e.1 :: dkeys v' from rfl] at hnd
        exact hnd)).2.2
      have hmem₁ : despace a.1 ∈ dkeys acc := by
        simp only [dkeys, List.mem_map]
        exact ⟨a, ha, rfl⟩
      have hmem₂ : despace a.1 ∈ despace e.1 :: dkeys v' := by
        rw [hd]; simp
      exact (List.disjoint_left.mp hdisj hmem₁) hmem₂
    rw [dinsert_fresh _ _ acc hfresh]
    rw [ih (acc ++ [(pySub L R e.1, e.2)]) (by
      rw [dkeys_eq, List.map_append, List.map_append, ← dkeys_eq]
      rw [show (([(pySub L R e.1, e.2)] : Vocab).map Prod.fst).map despace =
        [despace (pySub L R e.1)] from rfl]
      rw [despace_pySub, List.append_assoc]
      rw [show ([despace e.1] ++ dkeys v' : List (List Char)) =
        despace e.1 :: dkeys v' from rfl]
      rw [show dkeys (e :: v') = despace e.1 :: dkeys v' from rfl] at hnd
      exact hnd)]
    simp

theorem merge_vocab_eq_map (L R : List Char) (v : Vocab)
    (hnd : (dkeys v).Nodup) :
    merge_vocab L R v = v.map (fun e => (pySub L R e.1, e.2)) := by
  unfold merge_vocab
  rw [merge_fold_eq L R v [] (by simpa [dkeys] using hnd)]
  rfl

theorem dkeys_merge_vocab (L R : List Char) (v : Vocab)
    (hnd : (dkeys v).Nodup) :
    dkeys (merge_vocab L R v) = dkeys v := by
  rw [merge_vocab_eq_map L R v hnd]
  unfold dkeys
  rw [List.map_map]
  have : (fun e : List Char × Nat => despace e.1) ∘
      (fun e : List Char × Nat => (pySub L R e.1, e.2)) =
      fun e : List Char × Nat => despace e.1 := by
    funext e
    exact despace_pySub L R e.1
  rw [this]

/-- Every reachable training state has despace-distinct keys. -/
theorem reachable_dkeys_nodup : ∀ v : Vocab, ReachableState v → (dkeys v).Nodup := by
  intro v h
  induction h with
  | initSeq seqs hq =>
    refine (cincr_fold_inv frameB wsfree ?_ seqs [] hq (by simp [dkeys]) (by simp)).1
    intro s t hs ht hd
    rw [despace_frameB s hs, despace_frameB t ht] at hd
    have := (List.append_left_inj _).mp hd
    have := (List.append_right_inj _).mp this
    rw [this]
  | initWord words hq =>
    refine (cincr_fold_inv stdFrame wsfree ?_ words [] hq (by simp [dkeys]) (by simp)).1
    intro s t hs ht hd
    rw [despace_stdFrame s hs, despace_stdFrame t ht] at hd
    have := (List.append_left_inj _).mp hd
    rw [this]
  | merge L R w hw ih =>
    rw [dkeys_merge_vocab L R w ih]
    exact ih

/-- C5: on every reachable training state, a merge — for any selected pair —
keeps every entry's frequency unchanged (entry by entry, in order) and
preserves the total frequency mass. -/
theorem merge_vocab_preserves_frequencies (L R : List Char) (v : Vocab)
    (hv : ReachableState v) :
    (merge_vocab L R v).map Prod.snd = v.map Prod.snd ∧
    totalFreq (merge_vocab L R v) = totalFreq v := by
  have h := merge_vocab_eq_map L R v (reachable_dkeys_nodup v hv)
  have hsnd : (merge_vocab L R v).map Prod.snd = v.map Prod.snd := by
    rw [h, List.map_map]
    rfl
  exact ⟨hsnd, by unfold totalFreq; rw [hsnd]⟩

theorem merge_vocab_preserves_frequencies_witness :
    (merge_vocab ['A'] ['A'] (prepare_sequences [['A', 'A'], ['A', 'B'], ['A', 'A']])).map
        Prod.snd =
      (prepare_sequences [['A', 'A'], ['A', 'B'], ['A', 'A']]).map Prod.snd ∧
    totalFreq (merge_vocab ['A'] ['A'] (prepare_sequences [['A', 'A'], ['A', 'B'], ['A', 'A']])) =
      totalFreq (prepare_sequences [['A', 'A'], ['A', 'B'], ['A', 'A']]) :=
  merge_vocab_preserves_frequencies ['A'] ['A'] _
    (ReachableState.initSeq _ (by decide))

/-! ## Token counts never increase under rule replay -/

theorem wcAux_cons_sp (inw : Bool) (c : Char) (rest : List Char) (h : isSp c = true) :
    wcAux inw (c :: rest) = wcAux false rest := by
  simp [wcAux, h]

theorem wcAux_cons_nonsp (inw : Bool) (c : Char) (rest : List Char) (h : isSp c = false) :
    wcAux inw (c :: rest) = (if inw then 0 else 1) + wcAux true rest := by
  simp [wcAux, h]

theorem wcAux_append : ∀ u : List Char, ∀ inw : Bool, ∀ v : List Char,
    wcAux inw (u ++ v) =
      wcAux inw u + wcAux (u.foldl (fun _ c => !(isSp c)) inw) v := by
  intro u
  induction u with
  | nil => intro inw v; simp [wcAux]
  | cons c u' ih =>
    intro inw v
    rcases hc : isSp c with - | -
    · rw [List.cons_append, wcAux_cons_nonsp inw c _ hc, wcAux_cons_nonsp inw c u' hc,
        ih true v, List.foldl_cons, hc]
      simp [Nat.add_assoc]
    · rw [List.cons_append, wcAux_cons_sp inw c _ hc, wcAux_cons_sp inw c u' hc,
        ih false v, List.foldl_cons, hc]
      simp

theorem wcAux_true_le_false : ∀ v : List Char, wcAux true v ≤ wcAux false v := by
  intro v
  induction v with
  | nil => exact le_refl _
  | cons c rest ih =>
    rcases hc : isSp c with - | -
    · rw [wcAux_cons_nonsp true c rest hc, wcAux_cons_nonsp false c rest hc]
      simp
    · rw [wcAux_cons_sp true c rest hc, wcAux_cons_sp false c rest hc]

theorem wcAux_le_false (v : List Char) (b : Bool) : wcAux b v ≤ wcAux false v := by
  cases b
  · exact le_refl _
  · exact wcAux_true_le_false v

theorem wcAux_true_le (v : List Char) (b : Bool) : wcAux true v ≤ wcAux b v := by
  cases b
  · exact wcAux_true_le_false v
  · exact le_refl _

/-- The run flag after scanning a list depends only on its last character. -/
theorem foldl_flag_last : ∀ (u : List Char) (i : Bool),
    u.foldl (fun _ c => !(isSp c)) i =
      (match u.getLast? with
       | none => i
       | some c => !(isSp c)) := by
  intro u
  induction u with
  | nil => intro i; rfl
  | cons c u' ih =>
    intro i
    rw [List.foldl_cons]
    cases u' with
    | nil => simp [ih]
    | cons d u'' =>
      rw [ih (!(isSp c))]
      rw [List.getLast?_cons_cons]
      cases h : (d :: u'').getLast? with
      | none => simp at h
      | some e => rfl

theorem foldl_flag_afterFlag (R : List Char) :
    R.foldl (fun _ c => !(isSp c)) false = !(afterFlag R) := by
  rw [foldl_flag_last R false]
  unfold afterFlag
  cases R.getLast? with
  | none => rfl
  | some c => simp

/-- A substitution step never increases the number of whitespace-separated
runs: each replacement only removes the one space between `L` and `R`. -/
theorem wc_pySubGo (L R : List Char) :
    ∀ f : Nat, ∀ s : List Char, ∀ b : Bool, s.length ≤ f →
      wcAux (!b) (pySubGo L R f b s) ≤ wcAux (!b) s := by
  intro f
  induction f with
  | zero =>
    intro s b hlen
    have : s = [] := List.length_eq_zero.mp (Nat.le_zero.mp hlen)
    subst this
    exact le_refl _
  | succ g ih =>
    intro s b hlen
    cases s with
    | nil => exact le_refl _
    | cons c rest =>
      simp only [pySubGo]
      split
      · next hcond =>
        obtain ⟨hb, hpre, -⟩ := hcond
        subst hb
        obtain ⟨t, ht⟩ := (startsWith_iff _ _).mp hpre
        have hdrop : rest.drop (L.length + R.length) = t := by
          have h2 := congrArg (List.drop (L.length + R.length + 1)) ht
          rw [show L.length + R.length + 1 = (L ++ ' ' :: R).length + 0 from by simp; omega]
            at h2
          rw [drop_app] at h2
          simpa [List.drop_succ_cons] using h2
        rw [hdrop, ht]
        simp only [Bool.not_true]
        have hlent : t.length ≤ g := by
          have := congrArg List.length ht
          simp at this hlen
          omega
        rw [wcAux_append (L ++ R) false _, wcAux_append (L ++ ' ' :: R) false t]
        have hA : wcAux false (L ++ R) ≤ wcAux false (L ++ ' ' :: R) := by
          rw [wcAux_append L false R, wcAux_append L false (' ' :: R),
            wcAux_cons_sp _ ' ' R (by decide)]
          exact Nat.add_le_add_left (wcAux_le_false R _) _
        have hflag : (L ++ ' ' :: R).foldl (fun _ c => !(isSp c)) false =
            !(afterFlag R) := by
          rw [List.foldl_append, List.foldl_cons]
          rw [show isSp ' ' = true from by decide]
          exact foldl_flag_afterFlag R
        have hB : wcAux ((L ++ R).foldl (fun _ c => !(isSp c)) false)
              (pySubGo L R g (afterFlag R) t) ≤
            wcAux ((L ++ ' ' :: R).foldl (fun _ c => !(isSp c)) false) t := by
          rw [hflag]
          have hIH := ih t (afterFlag R) hlent
          cases R with
          | nil => exact le_trans (wcAux_le_false _ _) hIH
          | cons r0 R' =>
            have hth : (L ++ r0 :: R').foldl (fun _ c => !(isSp c)) false =
                !(afterFlag (r0 :: R')) := by
              rw [List.foldl_append, foldl_flag_last (r0 :: R')]
              unfold afterFlag
              cases h : (r0 :: R').getLast? with
              | none => simp at h
              | some e => rfl
            rw [hth]
            exact hIH
        exact Nat.add_le_add hA hB
      · have hIH := ih rest (isSp c) (by simp at hlen; omega)
        rcases hc : isSp c with - | -
        · rw [wcAux_cons_nonsp _ c _ hc, wcAux_cons_nonsp _ c rest hc]
          rw [hc] at hIH
          exact Nat.add_le_add_left (by simpa using hIH) _
        · rw [wcAux_cons_sp _ c _ hc, wcAux_cons_sp _ c rest hc]
          rw [hc] at hIH
          simpa using hIH

theorem wc_pySub (L R s : List Char) :
    wcAux false (pySub L R s) ≤ wcAux false s := by
  have := wc_pySubGo L R s.length s true (le_refl _)
  simpa using this

/-- `len(s.split())` is the run count. -/
theorem length_splitWsAux : ∀ s acc : List Char,
    (splitWsAux acc s).length =
      wcAux (!acc.isEmpty) s + (if acc.isEmpty = true then 0 else 1) := by
  intro s
  induction s with
  | nil =>
    intro acc
    rw [splitWsAux_nil_arg]
    rcases acc with - | ⟨a, as⟩
    · rfl
    · rfl
  | cons c rest ih =>
    intro acc
    rw [splitWsAux_cons_arg]
    rcases hc : isSp c with - | -
    · simp only [Bool.false_eq_true, if_false]
      rw [ih (c :: acc), wcAux_cons_nonsp _ c rest hc]
      rcases acc with - | ⟨a, as⟩
      · simp
        omega
      · simp
    · simp only [if_true]
      rw [wcAux_cons_sp _ c rest hc]
      rcases acc with - | ⟨a, as⟩
      · simp only [List.isEmpty_nil, if_true]
        rw [ih []]
        rfl
      · simp only [List.isEmpty_cons, Bool.false_eq_true, if_false]
        rw [List.length_cons, ih []]
        simp [Nat.add_comm]

theorem length_splitWs (s : List Char) :
    (splitWs s).length = wcAux false s := by
  rw [splitWs, length_splitWsAux s []]
  rfl

/-- One more rule never increases the token count. -/
theorem apply_bpe_count_step (seq : List Char)
    (rules : List (List Char × List Char)) (k : Nat) :
    (apply_bpe (rules.take (k + 1)) seq).length ≤
      (apply_bpe (rules.take k) seq).length := by
  unfold apply_bpe
  rw [length_splitWs, length_splitWs]
  rw [List.take_succ, List.foldl_append]
  cases rules[k]? with
  | none => exact le_refl _
  | some r => exact wc_pySub r.1 r.2 _

/-- C9: the token count of `apply_bpe` on rule-list prefixes is
non-increasing in the prefix length. -/
theorem apply_bpe_count_monotone (seq : List Char)
    (rules : List (List Char × List Char)) (m n : Nat) (h : m ≤ n) :
    (apply_bpe (rules.take n) seq).length ≤ (apply_bpe (rules.take m) seq).length := by
  induction n with
  | zero =>
    have : m = 0 := Nat.le_zero.mp h
    subst this
    exact le_refl _
  | succ k ih =>
    rcases Nat.lt_or_ge m (k + 1) with hlt | hge
    · exact le_trans (apply_bpe_count_step seq rules k) (ih (by omega))
    · have : m = k + 1 := by omega
      subst this
      exact le_refl _

theorem apply_bpe_count_monotone_witness :
    0 ≤ 1 ∧
    (apply_bpe ([(['A'], ['A'])].take 1) ['A', 'A', 'A']).length ≤
      (apply_bpe ([(['A'], ['A'])].take 0) ['A', 'A', 'A']).length :=
  ⟨by decide, apply_bpe_count_monotone ['A', 'A', 'A'] [(['A'], ['A'])] 0 1 (by decide)⟩

/-! ## The co-occurrence table agrees with the windowed-sum description -/

theorem lookupW_addW (k : Nat × Nat) (v : ℚ) :
    ∀ t : CoTable, ∀ q : Nat × Nat,
      lookupW (addW k v t) q = lookupW t q + (if q = k then v else 0) := by
  intro t
  induction t with
  | nil =>
    intro q
    simp only [addW, lookupW]
    split <;> ring
  | cons e rest ih =>
    intro q
    rcases e with ⟨k', v'⟩
    simp only [addW]
    by_cases hk : k = k'
    · rw [if_pos hk]
      simp only [lookupW]
      by_cases hq : q = k'
      · simp only [if_pos hq, if_pos (hq.trans hk.symm)]
      · simp only [if_neg hq, if_neg (fun h : q = k => hq (h.trans hk))]
        ring
    · rw [if_neg hk]
      simp only [lookupW]
      by_cases hq : q = k'
      · simp only [if_pos hq, if_neg (fun h : q = k => hk (h.symm.trans hq))]
        ring
      · simp only [if_neg hq]
        exact ih q

/-- Accumulating through a fold adds the per-element contributions to every
lookup. -/
theorem lookupW_foldl_add {ι : Type} (q : Nat × Nat) (F : ι → CoTable → CoTable)
    (c : ι → ℚ) :
    ∀ l : List ι, (∀ i ∈ l, ∀ tb, lookupW (F i tb) q = lookupW tb q + c i) →
      ∀ tb, lookupW (l.foldl (fun tb i => F i tb) tb) q =
        lookupW tb q + (l.map c).sum := by
  intro l
  induction l with
  | nil => intro _ tb; simp
  | cons i l' ih =>
    intro h tb
    rw [List.foldl_cons, ih (fun j hj tb' => h j (by simp [hj]) tb'),
      h i (by simp) tb]
    simp only [List.map_cons, List.sum_cons]
    ring

theorem mem_range1 : ∀ (n s x : Nat), x ∈ List.range' s n ↔ s ≤ x ∧ x < s + n := by
  intro n
  induction n with
  | zero => intro s x; simp [List.range']
  | succ m ih =>
    intro s x
    rw [List.range'_succ]
    simp only [List.mem_cons, ih (s + 1) x]
    omega

theorem range1_add : ∀ (m n s : Nat),
    List.range' s (m + n) = List.range' s m ++ List.range' (s + m) n := by
  intro m
  induction m with
  | zero => intro n s; simp [List.range']
  | succ k ih =>
    intro n s
    rw [show k + 1 + n = (k + n) + 1 from by omega]
    rw [List.range'_succ, ih n (s + 1), List.range'_succ]
    rw [show s + 1 + k = s + (k + 1) from by omega]
    rfl

theorem sum_map_congr {α : Type} (f g : α → ℚ) :
    ∀ l : List α, (∀ x ∈ l, f x = g x) → (l.map f).sum = (l.map g).sum := by
  intro l
  induction l with
  | nil => intro _; rfl
  | cons a l' ih =>
    intro h
    simp only [List.map_cons, List.sum_cons]
    rw [h a (by simp), ih (fun x hx => h x (by simp [hx]))]

theorem sum_map_zero {α : Type} (f : α → ℚ) :
    ∀ l : List α, (∀ x ∈ l, f x = 0) → (l.map f).sum = 0 := by
  intro l
  induction l with
  | nil => intro _; rfl
  | cons a l' ih =>
    intro h
    simp only [List.map_cons, List.sum_cons]
    rw [h a (by simp), ih (fun x hx => h x (by simp [hx]))]
    ring

/-- Summing over the clamped window equals summing over all positions with
the distance filter. -/
theorem winRange_sum (w len i : Nat) (hi : i < len) (g : Nat → ℚ) :
    ((winRange w len i).map g).sum =
      ((List.range len).map (fun j => if pdist i j ≤ w then g j else 0)).sum := by
  have hsplit : List.range len =
      (List.range' 0 (i - w) ++
        List.range' (i - w) (min len (i + w + 1) - (i - w))) ++
        List.range' (min len (i + w + 1)) (len - min len (i + w + 1)) := by
    have e0 : List.range len = List.range' 0 len := List.range_eq_range' len
    have e1 : List.range' 0 len =
        List.range' 0 ((i - w) + ((min len (i + w + 1) - (i - w)) +
          (len - min len (i + w + 1)))) :=
      congrArg (List.range' 0) (by omega)
    rw [e0, e1, range1_add, range1_add]
    rw [show (0 : Nat) + (i - w) = i - w from by omega]
    rw [show (i - w) + (min len (i + w + 1) - (i - w)) = min len (i + w + 1) from by omega]
    rw [List.append_assoc]
  rw [hsplit]
  rw [List.map_append, List.map_append, List.sum_append, List.sum_append]
  have h₁ : ((List.range' 0 (i - w)).map
      (fun j => if pdist i j ≤ w then g j else 0)).sum = 0 := by
    apply sum_map_zero
    intro x hx
    rw [mem_range1] at hx
    rw [if_neg (by unfold pdist; split <;> omega)]
  have h₃ : ((List.range' (min len (i + w + 1)) (len - min len (i + w + 1))).map
      (fun j => if pdist i j ≤ w then g j else 0)).sum = 0 := by
    apply sum_map_zero
    intro x hx
    rw [mem_range1] at hx
    rw [if_neg (by unfold pdist; split <;> omega)]
  have h₂ : ((List.range' (i - w) (min len (i + w + 1) - (i - w))).map
        (fun j => if pdist i j ≤ w then g j else 0)).sum =
      ((winRange w len i).map g).sum := by
    unfold winRange
    apply sum_map_congr
    intro x hx
    rw [mem_range1] at hx
    rw [if_pos (by unfold pdist; split <;> omega)]
  rw [h₁, h₂, h₃]
  ring

/-- The window loops add exactly the claim's per-pair weights for one
filtered stream. -/
theorem lookupW_computeStream (w : Nat) (ids : List Nat) (q : Nat × Nat) :
    ∀ tb : CoTable, lookupW (computeStream w tb ids) q =
      lookupW tb q + specPairWeight ids w q := by
  intro tb
  unfold computeStream specPairWeight
  apply lookupW_foldl_add q
  intro i hi tb'
  have hi' : i < ids.length := List.mem_range.mp hi
  rw [lookupW_foldl_add q
    (fun j tb'' =>
      if i ≠ j then
        addW (pairKey (ids.getD i 0) (ids.getD j 0)) (1 / (pdist i j : ℚ)) tb''
      else tb'')
    (fun j => if i ≠ j ∧ pdist i j ≤ w ∧ pairKey (ids.getD i 0) (ids.getD j 0) = q
      then 1 / (pdist i j : ℚ) else 0)
    (winRange w ids.length i) ?hstep tb']
  case hstep =>
    intro j hj tb''
    dsimp only
    unfold winRange at hj
    rw [mem_range1] at hj
    by_cases hij : i ≠ j
    · rw [if_pos hij, lookupW_addW]
      congr 1
      by_cases hkey : pairKey (ids.getD i 0) (ids.getD j 0) = q
      · rw [if_pos hkey.symm,
          if_pos ⟨hij, by unfold pdist; split <;> omega, hkey⟩]
      · rw [if_neg (fun h => hkey h.symm), if_neg (by tauto)]
    · rw [if_neg hij, if_neg (by tauto)]
      ring
  congr 1
  rw [winRange_sum w ids.length i hi'
    (fun j => if i ≠ j ∧ pdist i j ≤ w ∧ pairKey (ids.getD i 0) (ids.getD j 0) = q
      then 1 / (pdist i j : ℚ) else 0)]
  apply sum_map_congr
  intro j hj
  by_cases hd : pdist i j ≤ w
  · rw [if_pos hd]
  · rw [if_neg hd, if_neg (by tauto)]

theorem compute_cooccurrence_eq_specTable (streams : List (List (List Char)))
    (m : List (List Char × Nat)) (w : Nat) (key : Nat × Nat) :
    lookupW (compute_cooccurrence streams m w) key = specTable streams m w key := by
  unfold compute_cooccurrence specTable
  rw [lookupW_foldl_add key (fun s tb => computeStream w tb (filterIds m s))
    (fun s => specPairWeight (filterIds m s) w key) streams
    (fun s _ tb => lookupW_computeStream w (filterIds m s) key tb) []]
  rw [show lookupW ([] : CoTable) key = (0 : ℚ) from rfl]
  ring

/-- C2: `compute_cooccurrence` returns exactly the table described by the
claim — for every key, the stored weight (with the `defaultdict` default 0)
is the sum, over all streams and all ordered position pairs `(i, j)` of the
filtered id sequence with `i ≠ j` and `|i - j| ≤ w`, of `1/|i - j|` for the
pairs whose unordered id pair is that key; tokens absent from the mapping
are dropped before windowing, occupy no window slot, and raise no error. -/
theorem compute_cooccurrence_spec (streams : List (List (List Char)))
    (m : List (List Char × Nat)) (w : Nat) (key : Nat × Nat) (hw : 1 ≤ w) :
    lookupW (compute_cooccurrence streams m w) key = specTable streams m w key :=
  compute_cooccurrence_eq_specTable streams m w key

theorem compute_cooccurrence_spec_witness :
    1 ≤ 2 ∧
    lookupW (compute_cooccurrence [[['x'], ['y'], ['z']]]
        [(['x'], 0), (['y'], 1), (['z'], 2)] 2) (0, 1) =
      specTable [[['x'], ['y'], ['z']]] [(['x'], 0), (['y'], 1), (['z'], 2)] 2 (0, 1) :=
  ⟨by decide, compute_cooccurrence_spec [[['x'], ['y'], ['z']]]
    [(['x'], 0), (['y'], 1), (['z'], 2)] 2 (0, 1) (by decide)⟩

/-! ## Stored co-occurrence entries: sign and key orientation -/

theorem addW_good (k : Nat × Nat) (v : ℚ) (hk : k.1 ≤ k.2) (hv : 0 ≤ v) :
    ∀ t : CoTable, (∀ e ∈ t, 0 ≤ e.2 ∧ e.1.1 ≤ e.1.2) →
      ∀ e ∈ addW k v t, 0 ≤ e.2 ∧ e.1.1 ≤ e.1.2 := by
  intro t
  induction t with
  | nil =>
    intro _ e he
    simp only [addW, List.mem_singleton] at he
    subst he
    exact ⟨hv, hk⟩
  | cons x rest ih =>
    intro ht e he
    rcases x with ⟨k', v'⟩
    simp only [addW] at he
    by_cases hkk : k = k'
    · rw [if_pos hkk] at he
      rcases List.mem_cons.mp he with h | h
      · subst h
        have := ht (k', v') (by simp)
        exact ⟨add_nonneg this.1 hv, this.2⟩
      · exact ht e (by simp [h])
    · rw [if_neg hkk] at he
      rcases List.mem_cons.mp he with h | h
      · subst h
        exact ht (k', v') (by simp)
      · exact ih (fun x hx => ht x (by simp [hx])) e h

theorem foldl_table_preserve {ι : Type} (P : CoTable → Prop)
    (F : ι → CoTable → CoTable) (h : ∀ i t, P t → P (F i t)) :
    ∀ l : List ι, ∀ t, P t → P (l.foldl (fun t i => F i t) t) := by
  intro l
  induction l with
  | nil => intro t ht; exact ht
  | cons i l' ih =>
    intro t ht
    rw [List.foldl_cons]
    exact ih (F i t) (h i t ht)

/-- Amended C7: every stored weight is non-negative and every stored key is
ordered `i ≤ j`; keys with `i = j` do occur (same id twice within a
window), so only the position pair — not the id pair — is guaranteed
distinct. -/
theorem cooccurrence_entries_nonneg_ordered (streams : List (List (List Char)))
    (m : List (List Char × Nat)) (w : Nat) :
    ∀ e ∈ compute_cooccurrence streams m w, 0 ≤ e.2 ∧ e.1.1 ≤ e.1.2 := by
  unfold compute_cooccurrence
  apply foldl_table_preserve (fun t => ∀ e ∈ t, 0 ≤ e.2 ∧ e.1.1 ≤ e.1.2)
  · intro s t ht
    unfold computeStream
    apply foldl_table_preserve (fun t => ∀ e ∈ t, 0 ≤ e.2 ∧ e.1.1 ≤ e.1.2)
    · intro i tb htb
      apply foldl_table_preserve (fun t => ∀ e ∈ t, 0 ≤ e.2 ∧ e.1.1 ≤ e.1.2)
      · intro j tb' htb'
        by_cases hij : i ≠ j
        · rw [if_pos hij]
          exact addW_good _ _ min_le_max
            (one_div_nonneg.mpr (Nat.cast_nonneg _)) tb' htb'
        · rw [if_neg hij]
          exact htb'
      · exact htb
    · exact ht
  · intro e he
    simp at he

theorem cooccurrence_entries_nonneg_ordered_witness :
    (((0, 1), (2 : ℚ)) ∈ compute_cooccurrence [[['x'], ['y']]] [(['x'], 0), (['y'], 1)] 1) ∧
    (0 ≤ (((0, 1), (2 : ℚ)) : (Nat × Nat) × ℚ).2 ∧
      (((0, 1), (2 : ℚ)) : (Nat × Nat) × ℚ).1.1 ≤ (((0, 1), (2 : ℚ)) : (Nat × Nat) × ℚ).1.2) :=
  ⟨by with_unfolding_all decide,
    cooccurrence_entries_nonneg_ordered [[['x'], ['y']]] [(['x'], 0), (['y'], 1)] 1
      ((0, 1), (2 : ℚ)) (by with_unfolding_all decide)⟩

/-- Counterexample to C7 as stated: on the stream `["x", "x"]` with window
size 1 the code stores the self id pair `(0, 0)` (the same token id occurs
at two distinct positions inside the window), so stored keys `(i, j)` do
not satisfy `i ≠ j`. -/
theorem cooccurrence_self_pair_counterexample :
    compute_cooccurrence [[['x'], ['x']]] [(['x'], 0)] 1 = [((0, 0), 2)] ∧
    ¬ (∀ e ∈ compute_cooccurrence [[['x'], ['x']]] [(['x'], 0)] 1, e.1.1 ≠ e.1.2) := by
  with_unfolding_all decide

/-! ## Window size 1: every adjacency contributes twice -/

theorem sum_map_add {α : Type} (f g : α → ℚ) :
    ∀ l : List α, (l.map (fun x => f x + g x)).sum = (l.map f).sum + (l.map g).sum := by
  intro l
  induction l with
  | nil => simp
  | cons a l' ih =>
    simp only [List.map_cons, List.sum_cons]
    rw [ih]
    ring

theorem sum_ind_point (t : Nat) (f : Nat → ℚ) :
    ∀ n, ((List.range n).map (fun j => if j = t then f j else 0)).sum =
      if t < n then f t else 0 := by
  intro n
  induction n with
  | zero => simp
  | succ m ih =>
    rw [List.range_succ, List.map_append, List.sum_append, ih]
    simp only [List.map_cons, List.map_nil, List.sum_cons, List.sum_nil]
    by_cases hm : m = t
    · subst hm
      rw [if_pos rfl, if_neg (by omega), if_pos (by omega)]
      ring
    · rw [if_neg hm]
      by_cases ht : t < m
      · rw [if_pos ht, if_pos (by omega)]
        ring
      · rw [if_neg ht, if_neg (by omega)]
        ring

theorem sum_ind_filter_len {α : Type} (p : α → Bool) :
    ∀ l : List α,
      (l.map (fun x => if p x = true then (1 : ℚ) else 0)).sum =
        ((l.filter p).length : ℚ) := by
  intro l
  induction l with
  | nil => simp
  | cons a l' ih =>
    simp only [List.map_cons, List.sum_cons, List.filter_cons]
    by_cases hp : p a = true
    · rw [if_pos hp, if_pos hp, ih]
      rw [List.length_cons]
      push_cast
      ring
    · rw [if_neg hp, if_neg hp, ih]
      ring

theorem pairKey_comm (a b : Nat) : pairKey a b = pairKey b a := by
  unfold pairKey
  rw [Nat.min_comm, Nat.max_comm]

theorem sum_clamp_forward (P : Nat → Prop) [DecidablePred P] (c : Nat → ℚ) :
    ∀ n, ((List.range n).map (fun i => if i + 1 < n ∧ P i then c i else 0)).sum =
      ((List.range (n - 1)).map (fun i => if P i then c i else 0)).sum := by
  intro n
  cases n with
  | zero => simp
  | succ m =>
    rw [List.range_succ, List.map_append, List.sum_append]
    simp only [List.map_cons, List.map_nil, List.sum_cons, List.sum_nil]
    rw [if_neg (by omega)]
    rw [show m + 1 - 1 = m from by omega]
    rw [sum_map_congr (fun i => if i + 1 < m + 1 ∧ P i then c i else 0)
      (fun i => if P i then c i else 0) (List.range m) (by
      intro i hi
      have : i < m := List.mem_range.mp hi
      dsimp only
      by_cases hP : P i
      · rw [if_pos ⟨by omega, hP⟩, if_pos hP]
      · rw [if_neg (by tauto), if_neg hP])]
    ring

theorem sum_shift_backward (Q : Nat → Prop) [DecidablePred Q] (c : Nat → ℚ) :
    ∀ n, ((List.range n).map (fun i => if 1 ≤ i ∧ Q i then c i else 0)).sum =
      ((List.range (n - 1)).map (fun j => if Q (j + 1) then c (j + 1) else 0)).sum := by
  intro n
  cases n with
  | zero => simp
  | succ m =>
    rw [List.range_succ_eq_map]
    simp only [List.map_cons, List.sum_cons, List.map_map]
    rw [if_neg (by omega)]
    rw [show m + 1 - 1 = m from by omega]
    rw [sum_map_congr ((fun i => if 1 ≤ i ∧ Q i then c i else 0) ∘ Nat.succ)
      (fun j => if Q (j + 1) then c (j + 1) else 0) (List.range m) (by
      intro j _
      show (if 1 ≤ j + 1 ∧ Q (j + 1) then c (j + 1) else 0) =
        if Q (j + 1) then c (j + 1) else 0
      by_cases hQ : Q (j + 1)
      · rw [if_pos ⟨by omega, hQ⟩, if_pos hQ]
      · rw [if_neg (by tauto), if_neg hQ])]
    ring

/-- Index-based adjacency sums equal sums over `adjPairs`. -/
theorem adj_idx : ∀ (ids : List Nat) (h : Nat → Nat → ℚ),
    ((List.range (ids.length - 1)).map
      (fun i => h (ids.getD i 0) (ids.getD (i + 1) 0))).sum =
    ((adjPairs ids).map (fun p => h p.1 p.2)).sum := by
  intro ids h
  match ids with
  | [] => rfl
  | [a] => rfl
  | a :: b :: r =>
    have hrec := adj_idx (b :: r) h
    show ((List.range ((b :: r).length + 1 - 1)).map
      (fun i => h ((a :: b :: r).getD i 0) ((a :: b :: r).getD (i + 1) 0))).sum = _
    rw [show (b :: r).length + 1 - 1 = r.length + 1 from by simp]
    rw [List.range_succ_eq_map]
    simp only [List.map_cons, List.sum_cons, List.map_map]
    rw [sum_map_congr
      ((fun i => h ((a :: b :: r).getD i 0) ((a :: b :: r).getD (i + 1) 0)) ∘ Nat.succ)
      (fun i => h ((b :: r).getD i 0) ((b :: r).getD (i + 1) 0)) (List.range r.length) (by
        intro i _
        rfl)]
    rw [show (List.range r.length) = List.range ((b :: r).length - 1) from by simp]
    rw [hrec]
    rfl

/-- With window size 1, one stream's contribution to a key is exactly twice
its number of adjacent occurrences of that key (once per direction). -/
theorem specPairWeight_one (ids : List Nat) (key : Nat × Nat) :
    specPairWeight ids 1 key = 2 * (adjKeyCount ids key : ℚ) := by
  unfold specPairWeight
  rw [sum_map_congr _
    (fun i =>
      (if i + 1 < ids.length ∧ pairKey (ids.getD i 0) (ids.getD (i + 1) 0) = key
        then (1 : ℚ) else 0) +
      (if 1 ≤ i ∧ pairKey (ids.getD i 0) (ids.getD (i - 1) 0) = key
        then (1 : ℚ) else 0))
    (List.range ids.length) ?rows]
  case rows =>
    intro i hi
    have hi' : i < ids.length := List.mem_range.mp hi
    dsimp only
    -- split each row's sum into the `j = i+1` and `j+1 = i` points
    rw [sum_map_congr _
      (fun j =>
        (if j = i + 1 then
          (if i ≠ j ∧ pdist i j ≤ 1 ∧ pairKey (ids.getD i 0) (ids.getD j 0) = key
            then 1 / (pdist i j : ℚ) else 0) else 0) +
        (if j + 1 = i then
          (if i ≠ j ∧ pdist i j ≤ 1 ∧ pairKey (ids.getD i 0) (ids.getD j 0) = key
            then 1 / (pdist i j : ℚ) else 0) else 0))
      (List.range ids.length) (by
        intro j _
        dsimp only
        by_cases h1 : j = i + 1
        · rw [if_pos h1, if_neg (show ¬(j + 1 = i) from by omega)]
          ring
        · rw [if_neg h1]
          by_cases h2 : j + 1 = i
          · rw [if_pos h2]
            ring
          · rw [if_neg h2]
            rw [if_neg (by
              rintro ⟨hne, hd, -⟩
              unfold pdist at hd
              revert hd
              split <;> omega)]
            ring)]
    rw [sum_map_add]
    congr 1
    · -- forward point
      rw [sum_ind_point (i + 1)
        (fun j => if i ≠ j ∧ pdist i j ≤ 1 ∧ pairKey (ids.getD i 0) (ids.getD j 0) = key
          then 1 / (pdist i j : ℚ) else 0) ids.length]
      have hval : (if i ≠ i + 1 ∧ pdist i (i + 1) ≤ 1 ∧
            pairKey (ids.getD i 0) (ids.getD (i + 1) 0) = key
          then 1 / (pdist i (i + 1) : ℚ) else 0) =
          (if pairKey (ids.getD i 0) (ids.getD (i + 1) 0) = key then (1 : ℚ) else 0) := by
        have hp : pdist i (i + 1) = 1 := by unfold pdist; split <;> omega
        by_cases hK : pairKey (ids.getD i 0) (ids.getD (i + 1) 0) = key
        · rw [if_pos ⟨by omega, by rw [hp], hK⟩, if_pos hK, hp]
          norm_num
        · rw [if_neg (by tauto), if_neg hK]
      rw [hval]
      by_cases hlt : i + 1 < ids.length
      · by_cases hK : pairKey (ids.getD i 0) (ids.getD (i + 1) 0) = key
        · rw [if_pos hlt, if_pos hK, if_pos ⟨hlt, hK⟩]
        · rw [if_pos hlt, if_neg hK, if_neg (by tauto)]
      · rw [if_neg hlt, if_neg (by tauto)]
    · -- backward point
      cases i with
      | zero =>
        rw [sum_map_zero _ (List.range ids.length) (by
          intro j _
          rw [if_neg (show ¬(j + 1 = 0) from by omega)])]
        rw [if_neg (show ¬((1 : Nat) ≤ 0 ∧
          pairKey (ids.getD 0 0) (ids.getD (0 - 1) 0) = key) from by
            rintro ⟨h, -⟩; omega)]
      | succ i' =>
        rw [sum_map_congr _
          (fun j => if j = i' then
            (if i' + 1 ≠ j ∧ pdist (i' + 1) j ≤ 1 ∧
                pairKey (ids.getD (i' + 1) 0) (ids.getD j 0) = key
              then 1 / (pdist (i' + 1) j : ℚ) else 0) else 0)
          (List.range ids.length) (by
            intro j _
            dsimp only
            by_cases hj : j + 1 = i' + 1
            · rw [if_pos hj, if_pos (show j = i' from by omega)]
            · rw [if_neg hj, if_neg (show ¬(j = i') from by omega)])]
        rw [sum_ind_point i'
          (fun j => if i' + 1 ≠ j ∧ pdist (i' + 1) j ≤ 1 ∧
              pairKey (ids.getD (i' + 1) 0) (ids.getD j 0) = key
            then 1 / (pdist (i' + 1) j : ℚ) else 0) ids.length]
        have hval : (if i' + 1 ≠ i' ∧ pdist (i' + 1) i' ≤ 1 ∧
              pairKey (ids.getD (i' + 1) 0) (ids.getD i' 0) = key
            then 1 / (pdist (i' + 1) i' : ℚ) else 0) =
            (if pairKey (ids.getD (i' + 1) 0) (ids.getD i' 0) = key
              then (1 : ℚ) else 0) := by
          have hp : pdist (i' + 1) i' = 1 := by unfold pdist; split <;> omega
          by_cases hK : pairKey (ids.getD (i' + 1) 0) (ids.getD i' 0) = key
          · rw [if_pos ⟨by omega, by rw [hp], hK⟩, if_pos hK, hp]
            norm_num
          · rw [if_neg (by tauto), if_neg hK]
        have hi'lt : i' < ids.length := by omega
        rw [if_pos hi'lt, hval]
        by_cases hK : pairKey (ids.getD (i' + 1) 0) (ids.getD i' 0) = key
        · rw [if_pos hK, if_pos ⟨by omega, by
            rw [show i' + 1 - 1 = i' from by omega]; exact hK⟩]
        · rw [if_neg hK, if_neg (by
            rintro ⟨-, hcon⟩
            rw [show i' + 1 - 1 = i' from by omega] at hcon
            exact hK hcon)]
  rw [sum_map_add]
  rw [sum_clamp_forward
    (fun i => pairKey (ids.getD i 0) (ids.getD (i + 1) 0) = key) _ ids.length]
  rw [sum_shift_backward
    (fun i => pairKey (ids.getD i 0) (ids.getD (i - 1) 0) = key) _ ids.length]
  rw [sum_map_congr
    (fun j => if pairKey (ids.getD (j + 1) 0) (ids.getD (j + 1 - 1) 0) = key
      then (1 : ℚ) else 0)
    (fun j => if pairKey (ids.getD j 0) (ids.getD (j + 1) 0) = key then (1 : ℚ) else 0)
    (List.range (ids.length - 1)) (by
      intro j _
      dsimp only
      rw [show j + 1 - 1 = j from by omega, pairKey_comm])]
  have hcnt : ((List.range (ids.length - 1)).map
      (fun i => if pairKey (ids.getD i 0) (ids.getD (i + 1) 0) = key
        then (1 : ℚ) else 0)).sum = (adjKeyCount ids key : ℚ) := by
    rw [adj_idx ids (fun x y => if pairKey x y = key then (1 : ℚ) else 0)]
    unfold adjKeyCount
    rw [← sum_ind_filter_len (fun p : Nat × Nat => pairKey p.1 p.2 = key) (adjPairs ids)]
    apply sum_map_congr
    intro p _
    dsimp only
    by_cases hK : pairKey p.1 p.2 = key
    · rw [if_pos hK, if_pos (by simp [hK])]
    · rw [if_neg hK, if_neg (by simp [hK])]
  rw [hcnt]
  ring

theorem sum_map_two_mul {α : Type} (f : α → ℚ) :
    ∀ l : List α, (l.map (fun x => 2 * f x)).sum = 2 * (l.map f).sum := by
  intro l
  induction l with
  | nil => simp
  | cons a l' ih =>
    simp only [List.map_cons, List.sum_cons]
    rw [ih]
    ring

/-- Counterexample to C3 as stated: on the stream `["x","y","z"]` with
window size 2 the code yields weights `2.0, 1.0, 2.0` — each unordered pair
receives `1/d` once per direction — so the table is not
`{(x,y): 1.0, (x,z): 0.5, (y,z): 1.0}`. -/
theorem cooccurrence_scenario_counterexample :
    compute_cooccurrence [[['x'], ['y'], ['z']]] [(['x'], 0), (['y'], 1), (['z'], 2)] 2 =
      [((0, 1), 2), ((0, 2), 1), ((1, 2), 2)] ∧
    compute_cooccurrence [[['x'], ['y'], ['z']]] [(['x'], 0), (['y'], 1), (['z'], 2)] 2 ≠
      [((0, 1), 1), ((0, 2), 1 / 2), ((1, 2), 1)] := by
  with_unfolding_all decide

/-- Amended C3: the `["x","y","z"]`, window-2 table is exactly
`{(x,y): 2.0, (x,z): 1.0, (y,z): 2.0}`; and with window size 1, every pair
of immediately adjacent in-vocabulary tokens receives weight `2.0` per
adjacency (`1.0` per direction) while pairs two or more positions apart
receive none. -/
theorem cooccurrence_scenario_amended :
    compute_cooccurrence [[['x'], ['y'], ['z']]] [(['x'], 0), (['y'], 1), (['z'], 2)] 2 =
      [((0, 1), 2), ((0, 2), 1), ((1, 2), 2)] ∧
    ∀ (streams : List (List (List Char))) (m : List (List Char × Nat)) (key : Nat × Nat),
      lookupW (compute_cooccurrence streams m 1) key =
        2 * ((streams.map (fun s => (adjKeyCount (filterIds m s) key : ℚ))).sum) := by
  constructor
  · with_unfolding_all decide
  · intro streams m key
    rw [compute_cooccurrence_eq_specTable streams m 1 key]
    unfold specTable
    rw [sum_map_congr (fun s => specPairWeight (filterIds m s) 1 key)
      (fun s => 2 * (adjKeyCount (filterIds m s) key : ℚ)) streams (by
        intro s _
        dsimp only
        exact specPairWeight_one (filterIds m s) key)]
    exact sum_map_two_mul (fun s => (adjKeyCount (filterIds m s) key : ℚ)) streams

/-! ## Pair selection: first maximum in insertion order -/

/-- `max(pairs, key=pairs.get)` returns the first pair (in the table's
insertion order) attaining the maximal aggregate: some decomposition
`pre ++ e :: post` of the table has the result equal to `e`'s pair, every
value bounded by `e`'s, and every earlier value strictly below it. -/
theorem argmaxFirst_spec {α : Type} :
    ∀ (rest : List (α × Nat)) (kv : α × Nat),
      ∃ pre e post, kv :: rest = pre ++ e :: post ∧
        argmaxFirst kv rest = e.1 ∧
        (∀ x ∈ kv :: rest, x.2 ≤ e.2) ∧
        (∀ x ∈ pre, x.2 < e.2) := by
  intro rest
  induction rest with
  | nil =>
    intro kv
    exact ⟨[], kv, [], rfl, rfl, by simp, by simp⟩
  | cons x rest' ih =>
    intro kv
    by_cases hgt : x.2 > kv.2
    · obtain ⟨pre', e, post', hdec, hres, hmax, hpre⟩ := ih x
      refine ⟨kv :: pre', e, post', ?_, ?_, ?_, ?_⟩
      · rw [show (kv :: pre') ++ e :: post' = kv :: (pre' ++ e :: post') from rfl, ← hdec]
      · show argmaxFirst (if x.2 > kv.2 then x else kv) rest' = e.1
        rw [if_pos hgt]
        exact hres
      · intro y hy
        rcases List.mem_cons.mp hy with h | h
        · subst h
          have := hmax x (by simp)
          omega
        · exact hmax y h
      · intro y hy
        rcases List.mem_cons.mp hy with h | h
        · subst h
          have := hmax x (by simp)
          omega
        · exact hpre y h
    · obtain ⟨pre', e, post', hdec, hres, hmax, hpre⟩ := ih kv
      cases pre' with
      | nil =>
        have he : e = kv ∧ post' = rest' := by
          rw [List.nil_append] at hdec
          exact ⟨(List.cons.injEq _ _ _ _ ▸ hdec).1.symm,
            (List.cons.injEq _ _ _ _ ▸ hdec).2.symm⟩
        refine ⟨[], kv, x :: rest', rfl, ?_, ?_, by simp⟩
        · show argmaxFirst (if x.2 > kv.2 then x else kv) rest' = kv.1
          rw [if_neg hgt, hres, he.1]
        · intro y hy
          rcases List.mem_cons.mp hy with h | h
          · subst h; exact le_refl _
          rcases List.mem_cons.mp h with h' | h'
          · subst h'; omega
          · have := hmax y (by simp [h'])
            rw [he.1] at this
            exact this
      | cons p0 pre'' =>
        have hp0 : p0 = kv ∧ rest' = pre'' ++ e :: post' := by
          rw [List.cons_append] at hdec
          exact ⟨(List.cons.injEq _ _ _ _ ▸ hdec).1.symm,
            (List.cons.injEq _ _ _ _ ▸ hdec).2⟩
        have hkv_lt : kv.2 < e.2 := by
          have := hpre p0 (by simp)
          rw [hp0.1] at this
          exact this
        refine ⟨kv :: x :: pre'', e, post', ?_, ?_, ?_, ?_⟩
        · rw [show (kv :: x :: pre'') ++ e :: post' =
            kv :: x :: (pre'' ++ e :: post') from rfl, ← hp0.2]
        · show argmaxFirst (if x.2 > kv.2 then x else kv) rest' = e.1
          rw [if_neg hgt]
          exact hres
        · intro y hy
          rcases List.mem_cons.mp hy with h | h
          · subst h; omega
          rcases List.mem_cons.mp h with h' | h'
          · subst h'; omega
          · exact hmax y (List.mem_cons_of_mem _ h')
        · intro y hy
          rcases List.mem_cons.mp hy with h | h
          · subst h; omega
          rcases List.mem_cons.mp h with h' | h'
          · subst h'; omega
          · exact hpre y (by simp [h'])

/-- Amended C4: at each learner iteration the appended pair has maximal
aggregate frequency, but ties are broken by first encounter in the
statistics table's insertion order (the order pairs are first seen scanning
entries in insertion order, left to right) — not by a lexicographic order
on the pair. -/
theorem learner_selects_first_max (v : Vocab)
    (kv : (List Char × List Char) × Nat)
    (rest : List ((List Char × List Char) × Nat))
    (h : get_stats v = kv :: rest) :
    ∃ pre e post, get_stats v = pre ++ e :: post ∧
      argmaxFirst kv rest = e.1 ∧
      (∀ x ∈ get_stats v, x.2 ≤ e.2) ∧
      (∀ x ∈ pre, x.2 < e.2) := by
  rw [h]
  exact argmaxFirst_spec rest kv

theorem learner_selects_first_max_witness :
    get_stats (stdInitVocab [['B', 'A']]) =
      (((['B'], ['A']), 1) : (List Char × List Char) × Nat) ::
        [((['A'], ['<', '/', 'w', '>']), 1)] ∧
    (∃ pre e post, get_stats (stdInitVocab [['B', 'A']]) = pre ++ e :: post ∧
      argmaxFirst ((['B'], ['A']), 1) [((['A'], ['<', '/', 'w', '>']), 1)] = e.1 ∧
      (∀ x ∈ get_stats (stdInitVocab [['B', 'A']]), x.2 ≤ e.2) ∧
      (∀ x ∈ pre, x.2 < e.2)) :=
  ⟨by decide, learner_selects_first_max (stdInitVocab [['B', 'A']]) _ _ (by decide)⟩

/-- Counterexample to C4 as stated: on the corpus word `"BA"` the pairs
`(B, A)` and `(A, </w>)` tie at aggregate frequency 1; the code selects
`(B, A)` (first encountered), although `(A, </w>)` is lexicographically
smaller — so the tie is not broken by a lexicographic order on the pair. -/
theorem tie_break_not_lexicographic :
    get_stats (stdInitVocab [['B', 'A']]) =
      [((['B'], ['A']), 1), ((['A'], ['<', '/', 'w', '>']), 1)] ∧
    argmaxFirst ((['B'], ['A']), 1) [((['A'], ['<', '/', 'w', '>']), 1)] = (['B'], ['A']) ∧
    pairLt (['A'], ['<', '/', 'w', '>']) (['B'], ['A']) = true ∧
    (['B'], ['A']) ≠ (['A'], ['<', '/', 'w', '>']) :=
  ⟨by decide, by decide, by decide, by decide⟩

/-! ## Concrete learning scenarios -/

/-- Counterexample to C6 as stated: merging `(A, A)` into `A A A A </w>`
rewrites it to `AA AA </w>` (two non-overlapping occurrences merge in one
pass), not to `AA A </w>`. -/
theorem standard_scenario_counterexample :
    merge_vocab ['A'] ['A'] (stdInitVocab [['A', 'A', 'A', 'A']]) =
      [(['A', 'A', ' ', 'A', 'A', ' ', '<', '/', 'w', '>'], 1)] ∧
    merge_vocab ['A'] ['A'] (stdInitVocab [['A', 'A', 'A', 'A']]) ≠
      [(['A', 'A', ' ', 'A', ' ', '<', '/', 'w', '>'], 1)] :=
  ⟨by decide, by decide⟩

/-- Amended C6: on corpus `["AAAA"]` the initial state is the single entry
`A A A A </w>` with frequency 1; the pair `(A, A)` has aggregate frequency
3 and is the unique maximum; merging rewrites the entry to `AA AA </w>`. -/
theorem standard_scenario_amended :
    stdInitVocab [['A', 'A', 'A', 'A']] =
      [(['A', ' ', 'A', ' ', 'A', ' ', 'A', ' ', '<', '/', 'w', '>'], 1)] ∧
    get_stats (stdInitVocab [['A', 'A', 'A', 'A']]) =
      [((['A'], ['A']), 3), ((['A'], ['<', '/', 'w', '>']), 1)] ∧
    (∀ e ∈ get_stats (stdInitVocab [['A', 'A', 'A', 'A']]),
      e.1 ≠ (['A'], ['A']) → e.2 < 3) ∧
    argmaxFirst ((['A'], ['A']), 3) [((['A'], ['<', '/', 'w', '>']), 1)] = (['A'], ['A']) ∧
    merge_vocab ['A'] ['A'] (stdInitVocab [['A', 'A', 'A', 'A']]) =
      [(['A', 'A', ' ', 'A', 'A', ' ', '<', '/', 'w', '>'], 1)] :=
  ⟨by decide, by decide, by decide, by decide, by decide⟩

/-- C10: on corpus `["AA", "AB"]` with one merge, the learner's unique
maximal pair is `(<s>, A)` (aggregate 2), and applying the learned rule to
`"AA"` fuses the start sentinel into the token `<s>A` — sentinels do not
survive as standalone tokens. -/
theorem sentinel_fusion :
    learn_bpe 1 [['A', 'A'], ['A', 'B']] = [(['<', 's', '>'], ['A'])] ∧
    apply_bpe (learn_bpe 1 [['A', 'A'], ['A', 'B']]) ['A', 'A'] =
      [['<', 's', '>', 'A'], ['A'], ['<', '/', 's', '>']] ∧
    ¬ ['<', 's', '>'] ∈ apply_bpe (learn_bpe 1 [['A', 'A'], ['A', 'B']]) ['A', 'A'] :=
  ⟨by decide, by decide, by decide⟩
